import Mathlib

/-!
# EARL lexer (`src/lexer.cpp`): embedding and verification

The development embeds the scanner `lex_file`, its helper loops and the `Lexer`
token stream of `src/lexer.cpp`.

Conventions of the embedding.

* A `std::string` is a `List Char`; every `Char` stands for one `char` of the
  text.  Reading `src[src.size()]` yields the terminator `'\0'` as in C++
  (`charAt`); a read beyond the terminator is undefined behaviour and is an
  explicit outcome (`Outcome.undefined`).  The only loop of the scanner that
  can leave the buffer is the plain-comment loop of lines 333-336; every other
  loop tests for the terminator or for a character class that excludes it.
* A `char *` into the buffer (`&src[i]`, `lexeme+1`) is the suffix
  `src.drop i`; the helper loops run over that suffix.
* `size_t` arithmetic that can wrap (`src.size()-2`) is taken modulo `2^64`.
  The `int` counters `row`, `col` and the `int` result of
  `consume_multiline_bash` are naturals: they stay below `2^31` for texts
  shorter than `2^31` characters.
* The main loop of `lex_file` need not terminate, so it takes fuel: the number
  of iterations it may run.  `Outcome.timeout` means the fuel ran out.
-/

namespace Earl

/-! ## Tokens -/

/-- Modelled from the spec: the enumeration `TokenType` of `token.hpp`, which
is not among the sources.  The constructors are the kinds `lexer.cpp` names:
one for each entry of the operator table, then the literal, word and sentinel
kinds. -/
inductive TokenType
  | Lparen | Rparen | Lbracket | Rbracket | Lbrace | Rbrace | Hash | Period
  | Semicolon | Comma | Greaterthan | Lessthan | Equals | Ampersand | Asterisk
  | Plus | Minus | Forwardslash | Pipe | Caret | Questionmark | Backwardslash
  | Bang | At | Dollarsign | Percent | Backtick | Tilde | Colon
  | Double_Ampersand | Double_Pipe | Greaterthan_Equals | Lessthan_Equals
  | Double_Equals | Bang_Equals | Plus_Equals | Minus_Equals | Asterisk_Equals
  | Forwardslash_Equals | Percent_Equals | RightArrow | Double_Period
  | Double_Colon | Double_Asterisk | Pipe_Greaterthan | Double_Lessthan
  | Double_Greaterthan | Backtick_Pipe | Backtick_Ampersand | Backtick_Tilde
  | Backtick_Caret | Backtick_Pipe_Equals | Backtick_Ampersand_Equals
  | Backtick_Caret_Equals
  | Keyword | Ident | Intlit | Floatlit | Hexlit | Strlit | Charlit
  | Multiline_Bash | Info | Eof
  deriving DecidableEq

/-- Modelled from the spec: the data fields of `Token` (`token.hpp` is not
among the sources), as the constructor call of line 57 and `Lexer::dump` use
them.  The link `m_next` belongs to the heap model of the stream below. -/
structure Token where
  m_lexeme : List Char
  m_type : TokenType
  m_row : Nat
  m_col : Nat
  m_fp : String
  deriving DecidableEq

/-- Modelled from the spec: `token_alloc` of `token.cpp`, which is not among
the sources.  It builds the token whose lexeme is the `len` characters at
`start` (a null `start` with length zero gives the empty lexeme). -/
def token_alloc (start : List Char) (len : Nat) (type : TokenType)
    (row col : Nat) (fp : String) : Token :=
  ⟨start.take len, type, row, col, fp⟩

/-! ## Characters -/

/-- The terminator `'\0'`. -/
def NUL : Char := Char.ofNat 0

/-- The `char` at `src[i]`: a character of the text, or the terminator at
`i = src.size()`. -/
def charAt (src : List Char) (i : Nat) : Char := src.getD i NUL

/-- The function `isdigit` of `<cctype>` in the "C" locale. -/
def isdigit (c : Char) : Bool := decide (48 ≤ c.toNat) && decide (c.toNat ≤ 57)

/-- The function `isalpha` of `<cctype>` in the "C" locale. -/
def isalpha (c : Char) : Bool :=
  (decide (65 ≤ c.toNat) && decide (c.toNat ≤ 90)) ||
    (decide (97 ≤ c.toNat) && decide (c.toNat ≤ 122))

/-- The function `isalnum` of `<cctype>` in the "C" locale. -/
def isalnum (c : Char) : Bool := isalpha c || isdigit c

/-! ## Helper loops -/

/-- The function `consume_until` (lines 100-114) on the characters at `s`,
started with the given `skip` flag (`false` at entry): the index of the first
character that satisfies `predicate` and is not escaped, or of the terminator. -/
def consume_until (predicate : Char → Bool) : List Char → Bool → Nat
  | [], _ => 0
  | c :: s, skip =>
    if c == NUL then 0
    else if !skip && predicate c then 0
    else if skip && c == '\\' then consume_until predicate s false + 1
    else if c == '\\' then consume_until predicate s true + 1
    else consume_until predicate s false + 1

/-- The function `consume_multiline_bash` (lines 229-240) on the characters at
`s`: the result (`none` for `-1`) with the final values of the reference
parameters `cols` and `rows`. -/
def consume_multiline_bash : List Char → Nat → Nat → Option Nat × Nat × Nat
  | [], cols, rows => (none, cols, rows)
  | c :: s, cols, rows =>
    if c == NUL then (none, cols, rows)
    else
      let inbounds := c != NUL && s.getD 0 NUL != NUL && s.getD 1 NUL != NUL
      if inbounds && c == '`' && s.getD 0 NUL == '`' && s.getD 1 NUL == '`' then
        (some 0, cols, rows)
      else
        let r :=
          if c == '\n' then consume_multiline_bash s 0 (rows + 1)
          else consume_multiline_bash s (cols + 1) rows
        (r.1.map (· + 1), r.2)

/-- The plain-comment loop `while (src[i] != '\n') { ++i; ++col; }` (lines
333-336) on the characters at the cursor: the number of iterations, or `none`
when no newline follows, where the loop steps over the terminator and reads
outside the buffer. -/
def commentLen : List Char → Option Nat
  | [] => none
  | c :: s => if c == '\n' then some 0 else (commentLen s).map (· + 1)

/-! ## The operator table -/

/-- The table `ht` of `lex_file` (lines 256-311), in source order. -/
def ht : List (List Char × TokenType) :=
  [ ("(".toList, .Lparen), (")".toList, .Rparen), ("[".toList, .Lbracket),
    ("]".toList, .Rbracket), ("\x7b".toList, .Lbrace), ("\x7d".toList, .Rbrace),
    ("#".toList, .Hash), (".".toList, .Period), (";".toList, .Semicolon),
    (",".toList, .Comma), (">".toList, .Greaterthan), ("<".toList, .Lessthan),
    ("=".toList, .Equals), ("&".toList, .Ampersand), ("*".toList, .Asterisk),
    ("+".toList, .Plus), ("-".toList, .Minus), ("/".toList, .Forwardslash),
    ("|".toList, .Pipe), ("^".toList, .Caret), ("?".toList, .Questionmark),
    ("\\".toList, .Backwardslash), ("!".toList, .Bang), ("@".toList, .At),
    ("$".toList, .Dollarsign), ("%".toList, .Percent), ("`".toList, .Backtick),
    ("~".toList, .Tilde), (":".toList, .Colon),
    ("&&".toList, .Double_Ampersand), ("||".toList, .Double_Pipe),
    (">=".toList, .Greaterthan_Equals), ("<=".toList, .Lessthan_Equals),
    ("==".toList, .Double_Equals), ("!=".toList, .Bang_Equals),
    ("+=".toList, .Plus_Equals), ("-=".toList, .Minus_Equals),
    ("*=".toList, .Asterisk_Equals), ("/=".toList, .Forwardslash_Equals),
    ("%=".toList, .Percent_Equals), ("->".toList, .RightArrow),
    ("..".toList, .Double_Period), ("::".toList, .Double_Colon),
    ("**".toList, .Double_Asterisk), ("|>".toList, .Pipe_Greaterthan),
    ("<<".toList, .Double_Lessthan), (">>".toList, .Double_Greaterthan),
    ("`|".toList, .Backtick_Pipe), ("`&".toList, .Backtick_Ampersand),
    ("`~".toList, .Backtick_Tilde), ("`^".toList, .Backtick_Caret),
    ("`|=".toList, .Backtick_Pipe_Equals),
    ("`&=".toList, .Backtick_Ampersand_Equals),
    ("`^=".toList, .Backtick_Caret_Equals) ]

/-- The lookup `ht.find(buf)`: the kind of the entry whose key is `buf`. -/
def htFind (buf : List Char) : Option TokenType := ht.lookup buf

/-! ## The scanner -/

/-- The result of running code that may throw, leave the buffer, or loop. -/
inductive Outcome (α : Type)
  | done (a : α)
  | error (msg : String)
  | undefined
  | timeout
  deriving DecidableEq

/-- The locals of `lex_file` that live across iterations of the main loop: the
cursor `i`, `row`, `col`, and the stream `lexer`, held as the list of tokens
appended so far (`Lexer::append` adds at the end, see `Lexer.append_tokens`). -/
structure LexState where
  i : Nat
  row : Nat
  col : Nat
  toks : List Token
  deriving DecidableEq

/-- The unsigned difference `src.size()-2` of the guards of lines 318 and 360. -/
def sizeMinus2 (src : List Char) : Nat := (src.length + 2 ^ 64 - 2) % 2 ^ 64

/-- The first `if` of the loop body (lines 318-330): the documentation pragma
`#--`.  It is not chained to the `if`/`else if` cascade that follows. -/
def lexPragma (src : List Char) (fp : String) (st : LexState) : LexState :=
  if decide (st.i < sizeMinus2 src) && charAt src st.i == '#'
      && charAt src (st.i + 1) == '-' && charAt src (st.i + 2) == '-' then
    let info := (src.drop (st.i + 3)).takeWhile (fun c => c != NUL && c != '\n')
    let col := st.col + info.length
    { i := st.i + 3 + info.length, row := st.row, col := col,
      toks := st.toks ++ [⟨info.dropWhile (· == ' '), .Info, st.row, col, fp⟩] }
  else st

/-- The shrink-and-rescan loop `while (!buf.empty())` of the operator rule
(lines 429-447).  `n` bounds the iterations; `buf.length` is enough, since
every iteration that does not leave the loop removes a character. -/
def shrinkLoop (src : List Char) (fp : String) :
    Nat → List Char → LexState → LexState
  | 0, _, st => st
  | n + 1, buf, st =>
    if buf.isEmpty then st
    else
      match htFind buf with
      | some type =>
        if buf == ".".toList && charAt src st.i != NUL && isdigit (charAt src st.i) then
          let digit := (src.drop st.i).takeWhile isdigit
          { i := st.i + digit.length, row := st.row,
            col := st.col + (digit.length + 1),
            toks := st.toks ++ [⟨buf ++ digit, .Floatlit, st.row, st.col, fp⟩] }
        else
          { st with toks := st.toks ++ [⟨buf, type, st.row, st.col, fp⟩] }
      | none => shrinkLoop src fp n buf.dropLast { st with i := st.i - 1 }

/-- The result of one iteration of the main loop. -/
inductive StepResult
  | next (st : LexState)
  | throw (msg : String)
  | undefined
  deriving DecidableEq

/-- The plain-comment rule (lines 332-337). -/
def lexComment (src : List Char) (st : LexState) : StepResult :=
  match commentLen (src.drop st.i) with
  | some k => .next { st with i := st.i + k, col := st.col + k }
  | none => .undefined

/-- The string-literal rule (lines 350-358).  The pointer `lexeme` is the
cursor as it was at the start of the iteration (line 316). -/
def lexStrlit (src : List Char) (fp : String) (lexeme : Nat) (st : LexState) :
    StepResult :=
  let strlit_len := consume_until (· == '"') (src.drop (lexeme + 1)) false
  let tok := token_alloc (src.drop (lexeme + 1)) strlit_len .Strlit st.row st.col fp
  .next { i := st.i + (1 + strlit_len + 1), row := st.row,
          col := st.col + (1 + strlit_len + 1), toks := st.toks ++ [tok] }

/-- The multi-line script rule (lines 360-370). -/
def lexBash (src : List Char) (fp : String) (st : LexState) : StepResult :=
  match consume_multiline_bash (src.drop (st.i + 3)) st.col st.row with
  | (none, _, _) => .throw "could not find the end of the multiline bash script"
  | (some bash_len, col, row) =>
    let tok := token_alloc (src.drop (st.i + 3)) bash_len .Multiline_Bash row col fp
    .next { i := st.i + (6 + bash_len), row := row, col := col,
            toks := st.toks ++ [tok] }

/-- The character-literal rule (lines 372-381), with `lexeme` as in
`lexStrlit`. -/
def lexCharlit (src : List Char) (fp : String) (lexeme : Nat) (st : LexState) :
    StepResult :=
  let charlit_len := consume_until (· == '\'') (src.drop (lexeme + 1)) false
  let tok := token_alloc (src.drop (lexeme + 1)) charlit_len .Charlit st.row st.col fp
  .next { i := st.i + (1 + charlit_len + 1), row := st.row,
          col := st.col + (1 + charlit_len + 1), toks := st.toks ++ [tok] }

/-- The identifier and keyword rule (lines 383-392). -/
def lexIdent (src : List Char) (fp : String) (keywords : List (List Char))
    (st : LexState) : StepResult :=
  let ident := (src.drop st.i).takeWhile (fun d => d == '_' || isalnum d)
  let type := if keywords.contains ident then TokenType.Keyword else TokenType.Ident
  .next { i := st.i + ident.length, row := st.row,
          col := st.col + (ident.length + 1),
          toks := st.toks ++ [⟨ident, type, st.row, st.col + 1, fp⟩] }

/-- The hexadecimal rule (lines 394-404). -/
def lexHex (src : List Char) (fp : String) (st : LexState) : StepResult :=
  let run := (src.drop (st.i + 2)).takeWhile (fun d =>
    d != NUL && (isdigit d || (decide (65 ≤ d.toNat) && decide (d.toNat ≤ 70))
      || (decide (97 ≤ d.toNat) && decide (d.toNat ≤ 102))))
  let col := st.col + 2 + run.length
  .next { i := st.i + 2 + run.length, row := st.row, col := col,
          toks := st.toks ++ [⟨"0x".toList ++ run, .Hexlit, st.row, col, fp⟩] }

/-- The numeric rule (lines 406-423). -/
def lexNumber (src : List Char) (fp : String) (st : LexState) : StepResult :=
  let digit := (src.drop st.i).takeWhile isdigit
  let i := st.i + digit.length
  if charAt src i != NUL && charAt src (i + 1) != NUL && charAt src i == '.'
      && charAt src (i + 1) != '.' then
    let digit2 := ".".toList ++ (src.drop (i + 1)).takeWhile isdigit
    .next { i := i + digit2.length, row := st.row,
            col := st.col + (digit.length + digit2.length),
            toks := st.toks ++ [⟨digit ++ digit2, .Floatlit, st.row, st.col, fp⟩] }
  else
    .next { i := i, row := st.row, col := st.col + (digit.length + 1),
            toks := st.toks ++ [⟨digit, .Intlit, st.row, st.col, fp⟩] }

/-- The operator rule (lines 425-448). -/
def lexOperator (src : List Char) (fp : String) (st : LexState) : StepResult :=
  let buf := (src.drop st.i).takeWhile (fun d => d != NUL && !isalnum d && d != '_')
  .next (shrinkLoop src fp buf.length buf { st with i := st.i + buf.length })

/-- The `if`/`else if` cascade of the loop body (lines 332-448).  The state
`st` is the one the pragma rule leaves; `lexeme` is the cursor at the start of
the iteration, where line 316 takes the pointer `lexeme = &src[i]`. -/
def lexBranch (src : List Char) (fp : String) (keywords : List (List Char))
    (lexeme : Nat) (st : LexState) : StepResult :=
  if charAt src st.i == '#' then lexComment src st
  else if charAt src st.i == '\t' || charAt src st.i == ' ' then
    .next { st with i := st.i + 1, col := st.col + 1 }
  else if charAt src st.i == '\n' then
    .next { st with i := st.i + 1, row := st.row + 1, col := 0 }
  else if charAt src st.i == '"' then lexStrlit src fp lexeme st
  else if decide (st.i < sizeMinus2 src) && charAt src st.i == '`'
      && charAt src (st.i + 1) == '`' && charAt src (st.i + 2) == '`' then
    lexBash src fp st
  else if charAt src st.i == '\'' then lexCharlit src fp lexeme st
  else if isalpha (charAt src st.i) || charAt src st.i == '_' then
    lexIdent src fp keywords st
  else if charAt src st.i == '0' && charAt src (st.i + 1) != NUL
      && charAt src (st.i + 1) == 'x' then
    lexHex src fp st
  else if isdigit (charAt src st.i) then lexNumber src fp st
  else lexOperator src fp st

/-- One iteration of `while (i < src.size())` (lines 316-448). -/
def lexStep (src : List Char) (fp : String) (keywords : List (List Char))
    (st : LexState) : StepResult :=
  lexBranch src fp keywords st.i (lexPragma src fp st)

/-- The main loop `while (i < src.size())` (lines 315-449), run for at most
`fuel` iterations. -/
def lexLoop (src : List Char) (fp : String) (keywords : List (List Char)) :
    Nat → LexState → Outcome LexState
  | 0, st => if st.i < src.length then .timeout else .done st
  | fuel + 1, st =>
    if st.i < src.length then
      match lexStep src fp keywords st with
      | .next st' => lexLoop src fp keywords fuel st'
      | .throw msg => .error msg
      | .undefined => .undefined
    else .done st

/-- The function `lex_file` (lines 242-457) with the main loop bounded by
`fuel` iterations.  The parameters `types` and `comment` are unused (cast to
`void`) and left out; the `VERBOSE` log line has no effect on the result. -/
def lex_file (fuel : Nat) (src : List Char) (fp : String)
    (keywords : List (List Char)) : Outcome (List Token) :=
  match lexLoop src fp keywords fuel ⟨0, 1, 0, []⟩ with
  | .done st => .done (st.toks ++ [token_alloc [] 0 .Eof st.row st.col fp])
  | .error msg => .error msg
  | .undefined => .undefined
  | .timeout => .timeout

/-! ## The token stream `Lexer`

The stream is a singly linked list of `Token` objects.  The heap of the model
holds every token object allocated so far together with its link `m_next`; an
address is an index into it and `none` is the null pointer.  Dereferencing a
pointer that is null or names no object is `Outcome.undefined`. -/

/-- A `Token` object on the heap: its data and its link `m_next`. -/
structure Node where
  tok : Token
  m_next : Option Nat
  deriving DecidableEq

/-- The class `Lexer`: the members `m_hd`, `m_tl`, `m_len`, and the heap the
two pointers refer to. -/
structure Lexer where
  heap : List Node
  m_hd : Option Nat
  m_tl : Option Nat
  m_len : Nat
  deriving DecidableEq

namespace Lexer

/-- The constructor `Lexer::Lexer()` (line 43). -/
def new : Lexer := ⟨[], none, none, 0⟩

/-- The method `Lexer::append` (lines 45-54) for a freshly made token, as
line 57 and `token_alloc` make it: the token gets the next free address and a
null link.  The counter is a `size_t`. -/
def append (L : Lexer) (tok : Token) : Outcome Lexer :=
  let a := L.heap.length
  match L.m_hd with
  | none =>
    .done ⟨L.heap ++ [⟨tok, none⟩], some a, some a, (L.m_len + 1) % 2 ^ 64⟩
  | some _ =>
    match L.m_tl with
    | none => .undefined
    | some t =>
      match L.heap[t]? with
      | none => .undefined
      | some n =>
        .done ⟨L.heap.set t { n with m_next := some a } ++ [⟨tok, none⟩],
          L.m_hd, some a, (L.m_len + 1) % 2 ^ 64⟩

/-- The loop of `Lexer::peek` (lines 62-68): the pointer reached from `p`
after at most `n` links. -/
def peekPtr (heap : List Node) : Nat → Option Nat → Outcome (Option Nat)
  | 0, p => .done p
  | _ + 1, none => .done none
  | n + 1, some a =>
    match heap[a]? with
    | none => .undefined
    | some nd => peekPtr heap n nd.m_next

/-- The method `Lexer::peek` (lines 61-69), returning the token the result
points to (`none` for `nullptr`). -/
def peek (L : Lexer) (n : Nat) : Outcome (Option Token) :=
  match peekPtr L.heap n L.m_hd with
  | .done none => .done none
  | .done (some a) =>
    match L.heap[a]? with
    | none => .undefined
    | some nd => .done (some nd.tok)
  | .error msg => .error msg
  | .undefined => .undefined
  | .timeout => .timeout

/-- The method `Lexer::next` (lines 71-83): the token returned (`none` for
`nullptr`) and the stream afterwards. -/
def next (L : Lexer) : Outcome (Option Token × Lexer) :=
  match L.m_hd with
  | none => .done (none, L)
  | some a =>
    match L.heap[a]? with
    | none => .undefined
    | some nd =>
      .done (some nd.tok,
        ⟨L.heap, nd.m_next, if nd.m_next.isNone then none else L.m_tl,
          (L.m_len + 2 ^ 64 - 1) % 2 ^ 64⟩)

/-- The method `Lexer::discard` (lines 85-89). -/
def discard (L : Lexer) : Outcome Lexer :=
  match L.m_hd with
  | none => .done L
  | some a =>
    match L.heap[a]? with
    | none => .undefined
    | some nd => .done { L with m_hd := nd.m_next }

/-- The tokens met on the walk from pointer `p` along `m_next`, at most `k`
of them. -/
def tokensFrom (heap : List Node) : Nat → Option Nat → List Token
  | 0, _ => []
  | _ + 1, none => []
  | k + 1, some a =>
    match heap[a]? with
    | none => []
    | some nd => nd.tok :: tokensFrom heap k nd.m_next

/-- The list of tokens reachable from the head `m_hd`. -/
def tokens (L : Lexer) : List Token := tokensFrom L.heap L.heap.length L.m_hd

/-- A call of one of the four operations of the stream. -/
inductive Op
  | append (tok : Token)
  | next
  | discard
  | peek (n : Nat)

/-- The stream after one call. -/
def apply (L : Lexer) : Op → Outcome Lexer
  | .append tok => L.append tok
  | .next =>
    match L.next with
    | .done r => .done r.2
    | .error msg => .error msg
    | .undefined => .undefined
    | .timeout => .timeout
  | .discard => L.discard
  | .peek n =>
    match L.peek n with
    | .done _ => .done L
    | .error msg => .error msg
    | .undefined => .undefined
    | .timeout => .timeout

/-- The stream after a sequence of calls, first call first. -/
def run : List Op → Lexer → Outcome Lexer
  | [], L => .done L
  | op :: ops, L =>
    match L.apply op with
    | .done L' => run ops L'
    | .error msg => .error msg
    | .undefined => .undefined
    | .timeout => .timeout

/-- The results of `k` successive calls of `next`. -/
def drain : Nat → Lexer → Outcome (List (Option Token))
  | 0, _ => .done []
  | k + 1, L =>
    match L.next with
    | .done (r, L') =>
      match drain k L' with
      | .done rs => .done (r :: rs)
      | .error msg => .error msg
      | .undefined => .undefined
      | .timeout => .timeout
    | .error msg => .error msg
    | .undefined => .undefined
    | .timeout => .timeout

/-- A nonempty linked segment of the heap: the cell at address `a` holds the
token `t`, the cells linked after it hold the tokens `ts` in this order, the
last of these cells has a null link and the address `tl`, and the addresses
increase along the links, starting at `lo` or above. -/
def Seg (heap : List Node) : Nat → Nat → Token → List Token → Nat → Prop
  | lo, a, t, [], tl => lo ≤ a ∧ heap[a]? = some ⟨t, none⟩ ∧ tl = a
  | lo, a, t, t2 :: ts, tl =>
    lo ≤ a ∧ ∃ nxt, heap[a]? = some ⟨t, some nxt⟩ ∧ Seg heap (a + 1) nxt t2 ts tl

/-- The representation invariant of the stream: the head is null and the
stream is empty, or the head starts a linked segment that holds the tokens
`ts` and whose last cell is the one `m_tl` points to. -/
def Inv (L : Lexer) (ts : List Token) : Prop :=
  match L.m_hd, ts with
  | none, [] => True
  | some a, t :: ts => ∃ tl, L.m_tl = some tl ∧ Seg L.heap 0 a t ts tl
  | _, _ => False

end Lexer

/-! ## Notions the statements use -/

/-- The deterministic longest-match lookup the specification describes: try
the 3-character slice at the cursor, then the 2-character slice, then the
1-character slice. -/
def longestMatch (s : List Char) : Option (List Char × TokenType) :=
  match htFind (s.take 3) with
  | some type => some (s.take 3, type)
  | none =>
    match htFind (s.take 2) with
    | some type => some (s.take 2, type)
    | none =>
      match htFind (s.take 1) with
      | some type => some (s.take 1, type)
      | none => none

/-- The text `s` is nonempty and its first character reaches the operator rule:
it is not alphanumeric, `_`, `#`, a space, a tab, a newline, `"` or `'`, and
`s` does not begin with three backticks. -/
def opStart (s : List Char) : Bool :=
  match s with
  | [] => false
  | c :: _ =>
    !isalnum c && c != '_' && c != '#' && c != ' ' && c != '\t' && c != '\n'
      && c != '"' && c != '\'' && !("```".toList).isPrefixOf s

/-- The token the operator rule makes of the matched entry `k` of kind `type`
when the text `rest` follows it: a `Floatlit` for the entry `.` followed by a
digit, the entry with its kind otherwise. -/
def opToken (k : List Char) (type : TokenType) (rest : List Char)
    (row col : Nat) (fp : String) : Token :=
  if k = ".".toList ∧ isdigit (rest.getD 0 NUL) = true then
    ⟨k ++ rest.takeWhile isdigit, .Floatlit, row, col, fp⟩
  else ⟨k, type, row, col, fp⟩

/-- A nonempty string of decimal digits. -/
def isDigits (a : List Char) : Prop := a ≠ [] ∧ ∀ c ∈ a, isdigit c = true

instance (a : List Char) : Decidable (isDigits a) := by
  unfold isDigits; infer_instance

/-- A word: it starts with a letter or an underscore and consists of letters,
digits and underscores. -/
def isWord (w : List Char) : Prop :=
  (isalpha (w.getD 0 NUL) = true ∨ w.getD 0 NUL = '_') ∧
    ∀ c ∈ w, isalnum c = true ∨ c = '_'

instance (w : List Char) : Decidable (isWord w) := by
  unfold isWord; infer_instance

/-- The kind of a word under the keyword set `keywords`. -/
def wordKind (keywords : List (List Char)) (w : List Char) : TokenType :=
  if w ∈ keywords then .Keyword else .Ident

/-- The words of `ws` separated by single spaces. -/
def joinWords : List (List Char) → List Char
  | [] => []
  | [w] => w
  | w :: ws => w ++ ' ' :: joinWords ws

/-- The number of backslashes that end `p`. -/
def trailingBackslashes (p : List Char) : Nat :=
  (p.reverse.takeWhile (· == '\\')).length

/-- The content `c` of a string literal: it has no `NUL`, every `"` in it comes
right after an odd-length run of backslashes, and it does not end in an
odd-length run of backslashes. -/
def isStrContent (c : List Char) : Prop :=
  NUL ∉ c ∧
    (∀ k, k < c.length → c.getD k NUL = '"' →
      trailingBackslashes (c.take k) % 2 = 1) ∧
    trailingBackslashes c % 2 = 0

instance (c : List Char) : Decidable (isStrContent c) := by
  unfold isStrContent; infer_instance

/-! ## The source resolver -/

/-- The characters of the C string at `s`: those before the first terminator. -/
def cstr (s : List Char) : List Char := s.takeWhile (· != NUL)

/-- The function `sanatize_stdlib_bake_fp` (lines 154-166) on the characters at
`fp`: the loop `for (i = 0; fp[i]; ++i)` stops at the terminator. -/
def sanatize_stdlib_bake_fp : List Char → List Char
  | [] => []
  | c :: fp =>
    if c == NUL then []
    else (if c == '/' || c == '.' then '_' else c) :: sanatize_stdlib_bake_fp fp

/-- A file that `fopen` opens: its bytes, and whether the calls made on it
fail (`fseek` returning nonzero, `ftell` returning `-1` or a length that does
not fit, `malloc` or `fread` falling short). -/
structure File where
  content : List Char
  fseekFails : Bool
  ftellFails : Bool
  freadFails : Bool
  deriving DecidableEq

/-- What `read_file` does: it returns a text, returns `nullptr`, or throws an
`InterpreterException` with a message. -/
inductive ReadResult
  | text (s : List Char)
  | null
  | throw (msg : List Char)
  deriving DecidableEq

/-- The formatting call `snprintf(full_path, sizeof(full_path), ...)` into the
buffer `char full_path[256]` (lines 178-190): the first 255 characters of the
formatted name. -/
def snprintf256 (name : List Char) : List Char := name.take 255

/-- The loop over `include_dirs` (lines 189-195): the first file that opens
under `<dir>/<filepath>`. -/
def searchDirs (fs : List Char → Option File) (filepath : List Char) :
    List (List Char) → Option File
  | [] => none
  | dir :: dirs =>
    match fs (snprintf256 (cstr dir ++ '/' :: filepath)) with
    | some f => some f
    | none => searchDirs fs filepath dirs

/-- The function `read_file` (lines 168-227).  The macro `PREFIX` of `config.h`
and the table `baked_stdlib` of `bake.hpp` are not among the sources and are
parameters; a build without `PORTABLE` is the one whose table is empty.
`without_stdlib` is the test `(config::runtime::flags & __WITHOUT_STDLIB) != 0`,
`fs` is `fopen(_, "rb")`, and `filepath` holds the characters of the C string
passed in. -/
def read_file (PREFIX : List Char) (baked_stdlib : List Char → Option (List Char))
    (without_stdlib : Bool) (fs : List Char → Option File)
    (filepath : List Char) (include_dirs : List (List Char)) : ReadResult :=
  match (if without_stdlib then none
      else baked_stdlib (sanatize_stdlib_bake_fp filepath)) with
  | some text => .text text
  | none =>
    let search_path := PREFIX ++ "/include/EARL/".toList
    let f₀ := if without_stdlib then none else fs (snprintf256 (search_path ++ filepath))
    let f₁ := match f₀ with
      | some f => some f
      | none => searchDirs fs filepath include_dirs
    let f₂ := match f₁ with
      | some f => some f
      | none => fs filepath
    match f₂ with
    | none =>
      .throw ("could not find the specified source filepath: ".toList ++ filepath)
    | some f =>
      if f.fseekFails then
        .throw ("could not find the specified source filepath: ".toList ++ filepath)
      else if f.ftellFails then .null
      else if f.freadFails then .null
      else .text f.content

/-- The key the specification describes: every `/` and `.` replaced by `_`. -/
def flatKey (path : List Char) : List Char :=
  path.map (fun c => if c = '/' ∨ c = '.' then '_' else c)

/-- The resolution order the specification describes, over an embedded table
and a filesystem that are lookup functions: the text of the first candidate
that exists among the embedded table under the flat key and
`<PREFIX>/include/EARL/<path>` (both skipped in without-stdlib mode), then
`<dir>/<path>` for each include directory in order, then the literal path. -/
def resolve (PREFIX : List Char) (table : List Char → Option (List Char))
    (without_stdlib : Bool) (files : List Char → Option (List Char))
    (path : List Char) (dirs : List (List Char)) : Option (List Char) :=
  ((if without_stdlib then []
      else [table (flatKey path), files (PREFIX ++ "/include/EARL/".toList ++ path)])
    ++ dirs.map (fun dir => files (dir ++ '/' :: path))
    ++ [files path]).findSome? id

/-! ## Notions the later statements use -/

/-- The characters of a text that cannot stall or fail the scanner: letters,
digits, `_`, space, tab, newline, and the one-character keys of the operator
table other than `#` and the backtick. -/
def isPlainChar (c : Char) : Bool :=
  isalnum c || c == '_' || c == ' ' || c == '\t' || c == '\n'
    || ((htFind [c]).isSome && c != '#' && c != '`')

/-- The number of newlines in a text. -/
def newlines (t : List Char) : Nat := t.count '\n'

/-- The column counter after the characters of `t`, from the value `col`: a
newline resets it to 0 and every other character adds 1. -/
def colAfter (col : Nat) (t : List Char) : Nat :=
  t.foldl (fun c x => if x = '\n' then 0 else c + 1) col

/-- What iterations of the main loop add to the stream: `new` is `old`
followed by tokens of file `fp`, none of which is the sentinel `Eof`. -/
def Extends (fp : String) (old new : List Token) : Prop :=
  ∃ added, new = old ++ added ∧ ∀ t ∈ added, t.m_type ≠ .Eof ∧ t.m_fp = fp

/-! # Theorems -/

/-! ## Fuel -/

/-- A run of the main loop that ends within `n` iterations ends the same way
within any larger number of iterations. -/
theorem lexLoop_mono (src : List Char) (fp : String) (kws : List (List Char)) :
    ∀ (n m : Nat) (st : LexState) (r : Outcome LexState), n ≤ m →
      lexLoop src fp kws n st = r → r ≠ .timeout → lexLoop src fp kws m st = r := by
  intro n
  induction n with
  | zero =>
    intro m st r _ h hr
    by_cases hi : st.i < src.length
    · simp [lexLoop, hi] at h; exact absurd h.symm hr
    · cases m <;> simpa [lexLoop, hi] using h
  | succ n ih =>
    intro m st r hnm h hr
    obtain ⟨m, rfl⟩ : ∃ k, m = k + 1 := ⟨m - 1, by omega⟩
    by_cases hi : st.i < src.length
    · simp only [lexLoop, hi, if_true] at h ⊢
      cases hs : lexStep src fp kws st with
      | next st' =>
        rw [hs] at h
        exact ih m st' r (by omega) h hr
      | throw msg => rw [hs] at h; exact h
      | undefined => rw [hs] at h; exact h
    · simpa [lexLoop, hi] using h

/-- A result of `lex_file` other than a timeout does not depend on the fuel
once the fuel suffices. -/
theorem lex_file_mono (src : List Char) (fp : String) (kws : List (List Char))
    (n m : Nat) (r : Outcome (List Token)) (hnm : n ≤ m)
    (h : lex_file n src fp kws = r) (hr : r ≠ .timeout) :
    lex_file m src fp kws = r := by
  unfold lex_file at h ⊢
  cases hl : lexLoop src fp kws n ⟨0, 1, 0, []⟩ with
  | timeout => rw [hl] at h; exact absurd h.symm hr
  | done st =>
    rw [lexLoop_mono src fp kws n m _ _ hnm hl (by simp)]; rw [hl] at h; exact h
  | error msg =>
    rw [lexLoop_mono src fp kws n m _ _ hnm hl (by simp)]; rw [hl] at h; exact h
  | undefined =>
    rw [lexLoop_mono src fp kws n m _ _ hnm hl (by simp)]; rw [hl] at h; exact h

/-- A state inside the text that an iteration maps to itself is never left:
the loop exhausts every amount of fuel. -/
theorem lexLoop_stuck (src : List Char) (fp : String) (kws : List (List Char))
    (st : LexState) (hi : st.i < src.length)
    (hs : lexStep src fp kws st = .next st) :
    ∀ fuel, lexLoop src fp kws fuel st = .timeout := by
  intro fuel
  induction fuel with
  | zero => simp [lexLoop, hi]
  | succ n ih => simp [lexLoop, hi, hs, ih]

/-! ## The operator table -/

/-- Every entry of the table is found under its key, is not the sentinel, has
one to three characters, and consists of characters the operator rule
accumulates. -/
theorem ht_facts : ∀ p ∈ ht, htFind p.1 = some p.2 ∧ p.2 ≠ TokenType.Eof ∧
    1 ≤ p.1.length ∧ p.1.length ≤ 3 ∧
    (∀ c ∈ p.1, (c != NUL && !isalnum c && c != '_') = true) := by
  decide

theorem htFind_mem {k : List Char} {T : TokenType} (h : htFind k = some T) :
    (k, T) ∈ ht := by
  unfold htFind at h
  obtain ⟨l₁, l₂, h, -⟩ := List.lookup_eq_some_iff.mp h
  rw [h]; simp

theorem htFind_ne_eof {k : List Char} {T : TokenType} (h : htFind k = some T) :
    T ≠ .Eof := (ht_facts _ (htFind_mem h)).2.1

/-! ## Growth of the stream -/

theorem extends_refl (fp : String) (ts : List Token) : Extends fp ts ts :=
  ⟨[], by simp, by simp⟩

theorem extends_trans {fp : String} {a b c : List Token}
    (h₁ : Extends fp a b) (h₂ : Extends fp b c) : Extends fp a c := by
  obtain ⟨x, rfl, hx⟩ := h₁
  obtain ⟨y, rfl, hy⟩ := h₂
  refine ⟨x ++ y, by simp, ?_⟩
  intro t ht
  rcases List.mem_append.mp ht with h | h
  · exact hx t h
  · exact hy t h

theorem extends_one (fp : String) (ts : List Token) (t : Token)
    (h₁ : t.m_type ≠ .Eof) (h₂ : t.m_fp = fp) : Extends fp ts (ts ++ [t]) :=
  ⟨[t], rfl, by simp [h₁, h₂]⟩

theorem lexPragma_extends (src : List Char) (fp : String) (st : LexState) :
    Extends fp st.toks (lexPragma src fp st).toks := by
  unfold lexPragma
  split
  · exact extends_one _ _ _ (by simp) rfl
  · exact extends_refl _ _

theorem shrinkLoop_extends (src : List Char) (fp : String) :
    ∀ (n : Nat) (buf : List Char) (st : LexState),
      Extends fp st.toks (shrinkLoop src fp n buf st).toks := by
  intro n
  induction n with
  | zero => intro buf st; exact extends_refl _ _
  | succ n ih =>
    intro buf st
    unfold shrinkLoop
    split
    · exact extends_refl _ _
    · split
      · rename_i type hf
        split
        · exact extends_one _ _ _ (by simp) rfl
        · exact extends_one _ _ _ (htFind_ne_eof hf) rfl
      · exact ih _ _

theorem lexBranch_extends (src : List Char) (fp : String) (kws : List (List Char))
    (lexeme : Nat) (st st' : LexState) (h : lexBranch src fp kws lexeme st = .next st') :
    Extends fp st.toks st'.toks := by
  unfold lexBranch at h
  split_ifs at h
  · unfold lexComment at h
    split at h
    · simp only [StepResult.next.injEq] at h; subst h; exact extends_refl _ _
    · simp at h
  · simp only [StepResult.next.injEq] at h; subst h; exact extends_refl _ _
  · simp only [StepResult.next.injEq] at h; subst h; exact extends_refl _ _
  · simp only [lexStrlit, StepResult.next.injEq] at h; subst h
    exact extends_one _ _ _ (by simp [token_alloc]) rfl
  · unfold lexBash at h
    split at h
    · simp at h
    · simp only [StepResult.next.injEq] at h; subst h
      exact extends_one _ _ _ (by simp [token_alloc]) rfl
  · simp only [lexCharlit, StepResult.next.injEq] at h; subst h
    exact extends_one _ _ _ (by simp [token_alloc]) rfl
  · simp only [lexIdent, StepResult.next.injEq] at h; subst h
    exact extends_one _ _ _ (by dsimp only; split <;> simp) rfl
  · simp only [lexHex, StepResult.next.injEq] at h; subst h
    exact extends_one _ _ _ (by simp) rfl
  · unfold lexNumber at h
    dsimp only at h
    split at h
    · simp only [StepResult.next.injEq] at h; subst h
      exact extends_one _ _ _ (by simp) rfl
    · simp only [StepResult.next.injEq] at h; subst h
      exact extends_one _ _ _ (by simp) rfl
  · simp only [lexOperator, StepResult.next.injEq] at h; subst h
    exact shrinkLoop_extends _ _ _ _ _

theorem lexStep_extends (src : List Char) (fp : String) (kws : List (List Char))
    (st st' : LexState) (h : lexStep src fp kws st = .next st') :
    Extends fp st.toks st'.toks :=
  extends_trans (lexPragma_extends src fp st) (lexBranch_extends src fp kws _ _ _ h)

theorem lexLoop_extends (src : List Char) (fp : String) (kws : List (List Char)) :
    ∀ (fuel : Nat) (st st' : LexState), lexLoop src fp kws fuel st = .done st' →
      Extends fp st.toks st'.toks := by
  intro fuel
  induction fuel with
  | zero =>
    intro st st' h
    by_cases hi : st.i < src.length
    · simp [lexLoop, hi] at h
    · simp [lexLoop, hi] at h; subst h; exact extends_refl _ _
  | succ n ih =>
    intro st st' h
    by_cases hi : st.i < src.length
    · simp only [lexLoop, hi, if_true] at h
      cases hs : lexStep src fp kws st with
      | next st₁ =>
        rw [hs] at h
        exact extends_trans (lexStep_extends _ _ _ _ _ hs) (ih _ _ h)
      | throw msg => rw [hs] at h; simp at h
      | undefined => rw [hs] at h; simp at h
    · simp [lexLoop, hi] at h; subst h; exact extends_refl _ _

/-! ## The cursor inside a text -/

theorem charAt_nil (k : Nat) : charAt [] k = NUL := by simp [charAt]

theorem charAt_cons_zero (c : Char) (s : List Char) : charAt (c :: s) 0 = c := by
  simp [charAt]

theorem charAt_cons_succ (c : Char) (s : List Char) (k : Nat) :
    charAt (c :: s) (k + 1) = charAt s k := by
  simp [charAt]

theorem charAt_append_right (pre rest : List Char) (k : Nat) :
    charAt (pre ++ rest) (pre.length + k) = charAt rest k := by
  unfold charAt
  rw [List.getD_append_right _ _ _ _ (by omega)]
  simp

theorem charAt_append_left (a rest : List Char) (k : Nat) (h : k < a.length) :
    charAt (a ++ rest) k = charAt a k := by
  unfold charAt
  rw [List.getD_append _ _ _ _ h]

theorem drop_append_right (pre rest : List Char) (k : Nat) :
    (pre ++ rest).drop (pre.length + k) = rest.drop k := by
  rw [List.drop_append]

theorem takeWhile_stop (p : Char → Bool) (a rest : List Char)
    (ha : ∀ c ∈ a, p c = true) (hr : p (charAt rest 0) = false ∨ rest = []) :
    (a ++ rest).takeWhile p = a := by
  induction a with
  | nil =>
    cases rest with
    | nil => rfl
    | cons d rest =>
      rcases hr with hr | hr
      · simp only [charAt_cons_zero] at hr
        simp [List.takeWhile_cons, hr]
      · cases hr
  | cons c a ih =>
    have hc : p c = true := ha c (List.mem_cons_self _ _)
    simp only [List.cons_append, List.takeWhile_cons, hc, if_true]
    rw [ih (fun d hd => ha d (List.mem_cons_of_mem _ hd))]

/-! ## Character classes -/

theorem isdigit_facts {c : Char} (h : isdigit c = true) :
    c ≠ '#' ∧ c ≠ '\t' ∧ c ≠ ' ' ∧ c ≠ '\n' ∧ c ≠ '"' ∧ c ≠ '`' ∧ c ≠ '\'' ∧
      isalpha c = false ∧ c ≠ '_' ∧ c ≠ 'x' ∧ c ≠ NUL ∧ c ≠ '.' ∧
      isalnum c = true := by
  refine ⟨?_, ?_, ?_, ?_, ?_, ?_, ?_, ?_, ?_, ?_, ?_, ?_, ?_⟩
  case refine_8 =>
    simp only [isdigit, isalpha, Bool.and_eq_true, decide_eq_true_eq, Bool.or_eq_false_iff,
      Bool.and_eq_false_iff, decide_eq_false_iff_not] at h ⊢
    omega
  case refine_13 => simp [isalnum, h]
  all_goals (rintro rfl; exact absurd h (by decide))

theorem isalpha_facts {c : Char} (h : isalpha c = true ∨ c = '_') :
    c ≠ '#' ∧ c ≠ '\t' ∧ c ≠ ' ' ∧ c ≠ '\n' ∧ c ≠ '"' ∧ c ≠ '`' ∧ c ≠ '\'' ∧
      c ≠ NUL := by
  refine ⟨?_, ?_, ?_, ?_, ?_, ?_, ?_, ?_⟩
  all_goals (rintro rfl; rcases h with h | h <;> exact absurd h (by decide))

/-! ## Rules at the cursor -/

theorem lexPragma_of_ne (src : List Char) (fp : String) (st : LexState)
    (h : charAt src st.i ≠ '#') : lexPragma src fp st = st := by
  unfold lexPragma
  simp [h]

theorem lexStep_number (src : List Char) (fp : String) (kws : List (List Char))
    (st : LexState) (hd : isdigit (charAt src st.i) = true)
    (hx : charAt src (st.i + 1) ≠ 'x') :
    lexStep src fp kws st = lexNumber src fp st := by
  obtain ⟨h1, h2, h3, h4, h5, h6, h7, h8, h9, -, h11, -, -⟩ := isdigit_facts hd
  unfold lexStep
  rw [lexPragma_of_ne _ _ _ h1]
  unfold lexBranch
  simp [h1, h2, h3, h4, h5, h6, h7, h8, h9, hx, hd]

/-- The numeric rule on a digit string `a` that no fraction follows. -/
theorem lexStep_intlit (src pre a rest : List Char) (fp : String)
    (kws : List (List Char)) (row col : Nat) (toks : List Token)
    (hsrc : src = pre ++ (a ++ rest)) (ha : isDigits a)
    (hr : isdigit (charAt rest 0) = false)
    (hfrac : ¬ (charAt rest 0 = '.' ∧ charAt rest 1 ≠ NUL ∧ charAt rest 1 ≠ '.'))
    (hx : charAt rest 0 ≠ 'x') :
    lexStep src fp kws ⟨pre.length, row, col, toks⟩ =
      .next ⟨pre.length + a.length, row, col + (a.length + 1),
        toks ++ [⟨a, .Intlit, row, col, fp⟩]⟩ := by
  obtain ⟨hne, hall⟩ := ha
  obtain ⟨d, a', rfl⟩ := List.exists_cons_of_ne_nil hne
  have hd : isdigit d = true := hall d (List.mem_cons_self _ _)
  have h0 : charAt src (pre.length + 0) = d := by
    rw [hsrc, charAt_append_right]; simp [charAt_cons_zero]
  have h1 : charAt src (pre.length + 1) ≠ 'x' := by
    rw [hsrc, charAt_append_right]
    simp only [List.cons_append, charAt_cons_succ]
    cases a' with
    | nil => simpa using hx
    | cons e a'' =>
      simp only [List.cons_append, charAt_cons_zero]
      exact (isdigit_facts (hall e (by simp))).2.2.2.2.2.2.2.2.2.1
  rw [lexStep_number _ _ _ _ (by simpa using h0 ▸ hd) h1]
  unfold lexNumber
  have hrun : (src.drop pre.length).takeWhile isdigit = d :: a' := by
    have := drop_append_right pre (d :: a' ++ rest) 0
    simp only [Nat.add_zero, List.drop_zero] at this
    rw [hsrc, this]
    exact takeWhile_stop _ _ _ hall (Or.inl hr)
  simp only [hrun]
  have hc0 : charAt src (pre.length + (d :: a').length) = charAt rest 0 := by
    rw [hsrc, ← List.append_assoc, ← List.length_append, ← Nat.add_zero (pre ++ d :: a').length,
      charAt_append_right]
  have hc1 : charAt src (pre.length + (d :: a').length + 1) = charAt rest 1 := by
    rw [hsrc, ← List.append_assoc, ← List.length_append, charAt_append_right]
  rw [hc0, hc1]
  split
  · rename_i hcond
    simp only [Bool.and_eq_true, bne_iff_ne, ne_eq, beq_iff_eq] at hcond
    exact absurd ⟨hcond.1.2, hcond.1.1.2, hcond.2⟩ hfrac
  · rfl

/-- The numeric rule on a digit string `a` followed by `.` and the digit
string `b` (empty when a character other than a digit, `.` and the terminator
follows the `.`). -/
theorem lexStep_floatlit (src pre a b rest : List Char) (fp : String)
    (kws : List (List Char)) (row col : Nat) (toks : List Token)
    (hsrc : src = pre ++ (a ++ '.' :: (b ++ rest))) (ha : isDigits a)
    (hb : ∀ c ∈ b, isdigit c = true)
    (hr : isdigit (charAt rest 0) = false)
    (h1 : charAt (b ++ rest) 0 ≠ NUL) (h2 : charAt (b ++ rest) 0 ≠ '.') :
    lexStep src fp kws ⟨pre.length, row, col, toks⟩ =
      .next ⟨pre.length + a.length + (1 + b.length), row,
        col + (a.length + (1 + b.length)),
        toks ++ [⟨a ++ '.' :: b, .Floatlit, row, col, fp⟩]⟩ := by
  obtain ⟨hne, hall⟩ := ha
  obtain ⟨d, a', rfl⟩ := List.exists_cons_of_ne_nil hne
  have hd : isdigit d = true := hall d (List.mem_cons_self _ _)
  have h0 : charAt src (pre.length + 0) = d := by
    rw [hsrc, charAt_append_right]; simp [charAt_cons_zero]
  have hx : charAt src (pre.length + 1) ≠ 'x' := by
    rw [hsrc, charAt_append_right]
    simp only [List.cons_append, charAt_cons_succ]
    cases a' with
    | nil => simp [charAt_cons_zero]
    | cons e a'' =>
      simp only [List.cons_append, charAt_cons_zero]
      exact (isdigit_facts (hall e (by simp))).2.2.2.2.2.2.2.2.2.1
  rw [lexStep_number _ _ _ _ (by simpa using h0 ▸ hd) hx]
  unfold lexNumber
  have hrun : (src.drop pre.length).takeWhile isdigit = d :: a' := by
    have := drop_append_right pre (d :: a' ++ '.' :: (b ++ rest)) 0
    simp only [Nat.add_zero, List.drop_zero] at this
    rw [hsrc, this]
    exact takeWhile_stop _ _ _ hall (Or.inl (by simp [charAt_cons_zero]; decide))
  simp only [hrun]
  have hc0 : charAt src (pre.length + (d :: a').length) = '.' := by
    rw [hsrc, ← List.append_assoc, ← List.length_append, ← Nat.add_zero (pre ++ d :: a').length,
      charAt_append_right, charAt_cons_zero]
  have hc1 : charAt src (pre.length + (d :: a').length + 1) = charAt (b ++ rest) 0 := by
    rw [hsrc, ← List.append_assoc, ← List.length_append, charAt_append_right,
      charAt_cons_succ]
  have hdrop : src.drop (pre.length + (d :: a').length + 1) = b ++ rest := by
    rw [hsrc, ← List.append_assoc, ← List.length_append, drop_append_right]
    rfl
  have hrun2 : (b ++ rest).takeWhile isdigit = b := takeWhile_stop _ _ _ hb (Or.inl hr)
  have hdot : ".".toList = ['.'] := rfl
  rw [hc0, hc1, hdrop, hrun2, hdot]
  have hnul : ('.' : Char) ≠ NUL := by decide
  simp [h1, h2, hnul, Nat.add_assoc]
  omega

/-! ## The operator rule -/

theorem dropLast_take_succ (l : List Char) (n : Nat) (h : n + 1 ≤ l.length) :
    (l.take (n + 1)).dropLast = l.take n := by
  rw [List.dropLast_eq_take, List.length_take, List.take_take]
  congr 1
  omega

theorem htFind_nil : htFind [] = none := by decide

/-- The shrink-and-rescan loop finds the longest prefix of the accumulated run
that is a key of the table.  Here `run` is the run accumulated at the cursor
`pre.length` of `src = pre ++ s`, the buffer holds its first `n` characters, and
`m` is the largest length up to `n` whose prefix is a key. -/
theorem shrinkLoop_spec (src pre s : List Char) (fp : String) (hsrc : src = pre ++ s)
    (row col : Nat) (toks : List Token) (m : Nat) (T : TokenType)
    (hm : htFind ((s.takeWhile (fun d => d != NUL && !isalnum d && d != '_')).take m) = some T) :
    ∀ n, m ≤ n → n ≤ (s.takeWhile (fun d => d != NUL && !isalnum d && d != '_')).length →
      (∀ j, m < j → j ≤ n →
        htFind ((s.takeWhile (fun d => d != NUL && !isalnum d && d != '_')).take j) = none) →
      shrinkLoop src fp n ((s.takeWhile (fun d => d != NUL && !isalnum d && d != '_')).take n)
          ⟨pre.length + n, row, col, toks⟩ =
        if (s.takeWhile (fun d => d != NUL && !isalnum d && d != '_')).take m = ['.']
            ∧ isdigit (charAt s m) = true then
          ⟨pre.length + m + ((s.drop m).takeWhile isdigit).length, row,
            col + (((s.drop m).takeWhile isdigit).length + 1),
            toks ++ [⟨(s.takeWhile (fun d => d != NUL && !isalnum d && d != '_')).take m
              ++ (s.drop m).takeWhile isdigit, .Floatlit, row, col, fp⟩]⟩
        else
          ⟨pre.length + m, row, col,
            toks ++ [⟨(s.takeWhile (fun d => d != NUL && !isalnum d && d != '_')).take m,
              T, row, col, fp⟩]⟩ := by
  intro n
  induction n with
  | zero =>
    intro hmn _ _
    obtain rfl : m = 0 := by omega
    rw [List.take_zero, htFind_nil] at hm
    cases hm
  | succ n ih =>
    intro hmn hn hmax
    unfold shrinkLoop
    have hlen : (List.take (n + 1)
        (s.takeWhile (fun d => d != NUL && !isalnum d && d != '_'))).length = n + 1 := by
      rw [List.length_take]; omega
    have hne : (List.take (n + 1)
        (s.takeWhile (fun d => d != NUL && !isalnum d && d != '_'))).isEmpty = false := by
      cases h : List.take (n + 1) (s.takeWhile (fun d => d != NUL && !isalnum d && d != '_')) with
      | nil => rw [h] at hlen; simp at hlen
      | cons _ _ => rfl
    simp only [hne, Bool.false_eq_true, if_false]
    by_cases hmn' : m = n + 1
    · subst hmn'
      rw [hm]
      have hdot : ".".toList = ['.'] := rfl
      have hc : charAt src (pre.length + (n + 1)) = charAt s (n + 1) := by
        rw [hsrc, charAt_append_right]
      have hdr : src.drop (pre.length + (n + 1)) = s.drop (n + 1) := by
        rw [hsrc, drop_append_right]
      simp only [hdot, hc, hdr, beq_iff_eq]
      by_cases hcond : List.take (n + 1)
          (s.takeWhile (fun d => d != NUL && !isalnum d && d != '_')) = ['.']
          ∧ isdigit (charAt s (n + 1)) = true
      · have hnul := (isdigit_facts hcond.2).2.2.2.2.2.2.2.2.2.2.1
        simp [hcond.1, hcond.2, hnul, Nat.add_assoc]
      · rw [if_neg hcond]
        rw [if_neg]
        simp only [Bool.and_eq_true, decide_eq_true_eq, bne_iff_ne, ne_eq, not_and] at hcond ⊢
        intro h1 h2
        exact hcond (eq_of_beq h1.1) h2
    · have hnone := hmax (n + 1) (by omega) (le_refl _)
      rw [hnone]
      simp only
      rw [dropLast_take_succ _ _ hn]
      have := ih (by omega) (by omega) (fun j hj hjn => hmax j hj (by omega))
      simpa using this


theorem lexStep_opStart (src pre s : List Char) (fp : String) (kws : List (List Char))
    (row col : Nat) (toks : List Token) (hsrc : src = pre ++ s)
    (hs : opStart s = true) :
    lexStep src fp kws ⟨pre.length, row, col, toks⟩ =
      lexOperator src fp ⟨pre.length, row, col, toks⟩ := by
  cases s with
  | nil => simp [opStart] at hs
  | cons c s' =>
    have h0 : charAt src pre.length = c := by
      have := charAt_append_right pre (c :: s') 0
      rw [Nat.add_zero, ← hsrc] at this
      rw [this, charAt_cons_zero]
    have h1 : charAt src (pre.length + 1) = charAt s' 0 := by
      rw [hsrc, charAt_append_right, charAt_cons_succ]
    have h2 : charAt src (pre.length + 2) = charAt s' 1 := by
      rw [hsrc, charAt_append_right, charAt_cons_succ]
    simp only [opStart, Bool.and_eq_true, Bool.not_eq_true', bne_iff_ne, ne_eq] at hs
    obtain ⟨⟨⟨⟨⟨⟨⟨⟨ha, hu⟩, hh⟩, hsp⟩, htab⟩, hnl⟩, hq⟩, hap⟩, hbt⟩ := hs
    have halpha : isalpha c = false := by
      simp only [isalnum, Bool.or_eq_false_iff] at ha; exact ha.1
    have hdig : isdigit c = false := by
      simp only [isalnum, Bool.or_eq_false_iff] at ha; exact ha.2
    have hzero : c ≠ '0' := by rintro rfl; exact absurd ha (by decide)
    have hbt' : (c == '`' && charAt s' 0 == '`' && charAt s' 1 == '`') = false := by
      have e : "```".toList = ['`', '`', '`'] := rfl
      rw [e] at hbt
      cases s' with
      | nil => simp [charAt_nil]; intro _; decide
      | cons d s'' =>
        cases s'' with
        | nil =>
          simp only [charAt_cons_zero, charAt_cons_succ, charAt_nil]
          have : (NUL == '`') = false := by decide
          simp [this]
        | cons e s3 =>
          simp only [charAt_cons_zero, charAt_cons_succ]
          simp only [List.isPrefixOf, Bool.and_true, Bool.and_eq_false_imp, beq_iff_eq,
            beq_eq_false_iff_ne, ne_eq] at hbt ⊢
          intro hc he
          simp only [Bool.and_eq_true, beq_iff_eq] at hc
          exact hbt hc.1.symm hc.2.symm he.symm
    unfold lexStep
    rw [lexPragma_of_ne _ _ _ (by simpa [h0] using hh)]
    unfold lexBranch
    simp only [h0, h1, h2]
    simp only [Bool.and_assoc] at hbt' ⊢
    simp [hh, hsp, htab, hnl, hq, hap, halpha, hu, hzero, hdig, hbt']

theorem prefix_takeWhile (p : Char → Bool) (k s : List Char) (hk : k <+: s)
    (hp : ∀ c ∈ k, p c = true) : k <+: s.takeWhile p := by
  obtain ⟨t, rfl⟩ := hk
  rw [List.takeWhile_append_of_pos hp]
  exact List.prefix_append _ _

/-- The operator rule at the cursor `pre.length` of `src = pre ++ s`, when `k`
is the longest key of the table that is a prefix of `s`. -/
theorem lexStep_operator (src pre s : List Char) (fp : String) (kws : List (List Char))
    (row col : Nat) (toks : List Token) (hsrc : src = pre ++ s)
    (hs : opStart s = true) (k : List Char) (T : TokenType)
    (hk : htFind k = some T) (hpre : k <+: s)
    (hmax : ∀ e ∈ ht, e.1 <+: s → e.1.length ≤ k.length) :
    lexStep src fp kws ⟨pre.length, row, col, toks⟩ =
      .next (if k = ['.'] ∧ isdigit (charAt s k.length) = true then
          ⟨pre.length + k.length + ((s.drop k.length).takeWhile isdigit).length, row,
            col + (((s.drop k.length).takeWhile isdigit).length + 1),
            toks ++ [⟨k ++ (s.drop k.length).takeWhile isdigit, .Floatlit, row, col, fp⟩]⟩
        else ⟨pre.length + k.length, row, col, toks ++ [⟨k, T, row, col, fp⟩]⟩) := by
  rw [lexStep_opStart src pre s fp kws row col toks hsrc hs]
  unfold lexOperator
  have hdrop : src.drop pre.length = s := by
    have := drop_append_right pre s 0
    rwa [Nat.add_zero, List.drop_zero, ← hsrc] at this
  simp only [hdrop]
  have hsym := (ht_facts _ (htFind_mem hk)).2.2.2.2
  have hkrun := prefix_takeWhile _ k s hpre hsym
  have hklen : k.length ≤ (s.takeWhile (fun d => d != NUL && !isalnum d && d != '_')).length :=
    hkrun.length_le
  have hktake : (s.takeWhile (fun d => d != NUL && !isalnum d && d != '_')).take k.length = k :=
    (List.prefix_iff_eq_take.mp hkrun).symm
  have key := shrinkLoop_spec src pre s fp hsrc row col toks k.length T (by rw [hktake]; exact hk)
    (s.takeWhile (fun d => d != NUL && !isalnum d && d != '_')).length hklen (le_refl _)
    (by
      intro j hj hjn
      cases hf : htFind ((s.takeWhile (fun d => d != NUL && !isalnum d && d != '_')).take j) with
      | none => rfl
      | some T' =>
        exfalso
        have hmem := htFind_mem hf
        have hp : (s.takeWhile (fun d => d != NUL && !isalnum d && d != '_')).take j <+: s :=
          (List.take_prefix _ _).trans (List.takeWhile_prefix _)
        have := hmax _ hmem hp
        simp only [List.length_take] at this
        omega)
  rw [List.take_length, hktake] at key
  rw [key]

/-! ## Running the loop -/

theorem isdigit_not_sym {d : Char} (h : isdigit d = true) :
    (d != NUL && !isalnum d && d != '_') = false := by
  simp [(isdigit_facts h).2.2.2.2.2.2.2.2.2.2.2.2]

theorem lexLoop_done (src : List Char) (fp : String) (kws : List (List Char))
    (fuel : Nat) (st : LexState) (h : src.length ≤ st.i) :
    lexLoop src fp kws fuel st = .done st := by
  cases fuel <;> simp [lexLoop, Nat.not_lt.mpr h]

theorem lexLoop_step (src : List Char) (fp : String) (kws : List (List Char))
    (fuel i : Nat) (row col : Nat) (toks : List Token) (st' : LexState)
    (h : i < src.length)
    (hs : lexStep src fp kws ⟨i, row, col, toks⟩ = .next st') :
    lexLoop src fp kws (fuel + 1) ⟨i, row, col, toks⟩ = lexLoop src fp kws fuel st' := by
  simp [lexLoop, h, hs]

theorem lex_file_of_loop (src : List Char) (fp : String) (kws : List (List Char))
    (n fuel : Nat) (st : LexState) (hn : n ≤ fuel)
    (h : lexLoop src fp kws n ⟨0, 1, 0, []⟩ = .done st) :
    lex_file fuel src fp kws = .done (st.toks ++ [⟨[], .Eof, st.row, st.col, fp⟩]) := by
  unfold lex_file
  rw [lexLoop_mono src fp kws n fuel _ _ hn h (by simp)]
  rfl

/-! ## Longest match -/

theorem charAt_drop (s : List Char) (n k : Nat) : charAt (s.drop n) k = charAt s (n + k) := by
  simp [charAt, List.getD_eq_getElem?_getD, List.getElem?_drop]

/-- The lookup that tries the slices of three, two and one characters returns
the longest key of the table that is a prefix of the text, when there is one. -/
theorem longestMatch_spec (s : List Char) (hex : ∃ e ∈ ht, e.1 <+: s) :
    ∃ k T, longestMatch s = some (k, T) ∧ htFind k = some T ∧ k <+: s ∧
      ∀ e ∈ ht, e.1 <+: s → e.1.length ≤ k.length := by
  have hfind : ∀ e ∈ ht, e.1 <+: s → htFind (s.take e.1.length) = some e.2 := by
    intro e he hp
    rw [← List.prefix_iff_eq_take.mp hp]
    exact (ht_facts e he).1
  have hlen : ∀ e ∈ ht, e.1 <+: s → 1 ≤ e.1.length ∧ e.1.length ≤ 3 ∧ e.1.length ≤ s.length :=
    fun e he hp => ⟨(ht_facts e he).2.2.1, (ht_facts e he).2.2.2.1, hp.length_le⟩
  unfold longestMatch
  cases h3 : htFind (s.take 3) with
  | some T =>
    refine ⟨s.take 3, T, rfl, h3, List.take_prefix _ _, ?_⟩
    intro e he hp
    have := hlen e he hp
    rw [List.length_take]; omega
  | none =>
    cases h2 : htFind (s.take 2) with
    | some T =>
      refine ⟨s.take 2, T, rfl, h2, List.take_prefix _ _, ?_⟩
      intro e he hp
      have hl := hlen e he hp
      have hf := hfind e he hp
      rw [List.length_take]
      by_contra hcon
      have : e.1.length = 3 := by omega
      rw [this, h3] at hf
      cases hf
    | none =>
      cases h1 : htFind (s.take 1) with
      | some T =>
        refine ⟨s.take 1, T, rfl, h1, List.take_prefix _ _, ?_⟩
        intro e he hp
        have hl := hlen e he hp
        have hf := hfind e he hp
        rw [List.length_take]
        by_contra hcon
        have : e.1.length = 3 ∨ e.1.length = 2 := by omega
        rcases this with h | h
        · rw [h, h3] at hf; cases hf
        · rw [h, h2] at hf; cases hf
      | none =>
        exfalso
        obtain ⟨e, he, hp⟩ := hex
        have hl := hlen e he hp
        have hf := hfind e he hp
        have : e.1.length = 3 ∨ e.1.length = 2 ∨ e.1.length = 1 := by omega
        rcases this with h | h | h
        · rw [h, h3] at hf; cases hf
        · rw [h, h2] at hf; cases hf
        · rw [h, h1] at hf; cases hf

/-- A key of the table that is a prefix of a text ends before the first
character the operator rule does not accumulate. -/
theorem key_prefix_length (e : List Char × TokenType) (he : e ∈ ht) (u v : List Char)
    (d : Char) (hd : (d != NUL && !isalnum d && d != '_') = false)
    (hp : e.1 <+: u ++ d :: v) : e.1.length ≤ u.length := by
  by_contra hcon
  have hlt : u.length < e.1.length := by omega
  have h1 := hp.getElem hlt
  have hbound : u.length < (u ++ d :: v).length := by simp
  have h2 : (u ++ d :: v)[u.length] = d := by
    rw [List.getElem_append_right (le_refl _)]
    simp
  have hmem : d ∈ e.1 := by
    rw [← h2, ← h1]
    exact List.getElem_mem _
  have := (ht_facts e he).2.2.2.2 d hmem
  rw [this] at hd
  cases hd

/-! ## The claims on the scanner -/

/-- Claim C1: when the first character of `s` reaches the operator rule and
some key of the operator table is a prefix of `s`, the first iteration of the
main loop appends one token, built from the longest key `k` that is a prefix
of `s` and the kind the table gives it (a `Floatlit` when `k` is `.` and a
digit follows); `k` is what the lookup of the 3-, 2- and 1-character slices
returns; and whenever `lex_file` returns a stream, that token is its first. -/
theorem operator_longest_match (s : List Char) (fp : String) (kws : List (List Char))
    (hs : opStart s = true) (hex : ∃ e ∈ ht, e.1 <+: s) :
    ∃ k T, htFind k = some T ∧ k <+: s ∧
      (∀ e ∈ ht, e.1 <+: s → e.1.length ≤ k.length) ∧
      longestMatch s = some (k, T) ∧
      (∃ st, lexStep s fp kws ⟨0, 1, 0, []⟩ = .next st ∧
        st.toks = [opToken k T (s.drop k.length) 1 0 fp]) ∧
      ∀ fuel stream, lex_file fuel s fp kws = .done stream →
        stream.head? = some (opToken k T (s.drop k.length) 1 0 fp) := by
  obtain ⟨k, T, hlm, hk, hpre, hmax⟩ := longestMatch_spec s hex
  have hstep := lexStep_operator s [] s fp kws 1 0 [] rfl hs k T hk hpre hmax
  simp only [List.length_nil, Nat.zero_add, List.nil_append] at hstep
  have htok : ∃ st, lexStep s fp kws ⟨0, 1, 0, []⟩ = .next st ∧
      st.toks = [opToken k T (s.drop k.length) 1 0 fp] := by
    refine ⟨_, hstep, ?_⟩
    have hc : (s.drop k.length).getD 0 NUL = charAt s k.length := by
      have := charAt_drop s k.length 0
      rw [Nat.add_zero] at this
      exact this
    have hdot : ".".toList = ['.'] := rfl
    unfold opToken
    rw [hc, hdot]
    split <;> rfl
  refine ⟨k, T, hk, hpre, hmax, hlm, htok, ?_⟩
  intro fuel stream hret
  obtain ⟨st, hst, htoks⟩ := htok
  have hpos : 0 < s.length := by
    cases s with
    | nil => simp [opStart] at hs
    | cons _ _ => simp
  unfold lex_file at hret
  cases fuel with
  | zero => simp [lexLoop, hpos] at hret
  | succ n =>
    simp only [lexLoop, hpos, if_true, hst] at hret
    cases hl : lexLoop s fp kws n st with
    | done st' =>
      rw [hl] at hret
      simp only [Outcome.done.injEq] at hret
      obtain ⟨added, hadd, -⟩ := lexLoop_extends _ _ _ _ _ _ hl
      rw [← hret, hadd, htoks]
      simp
    | error msg => rw [hl] at hret; cases hret
    | undefined => rw [hl] at hret; cases hret
    | timeout => rw [hl] at hret; cases hret

/-- Witness of `operator_longest_match`: the text of the three characters
backtick, `|`, `=`, which is lexed as the one token `Backtick_Pipe_Equals`. -/
theorem operator_longest_match_witness :
    (∃ k T, htFind k = some T ∧ k <+: "`|=".toList ∧
      (∀ e ∈ ht, e.1 <+: "`|=".toList → e.1.length ≤ k.length) ∧
      longestMatch "`|=".toList = some (k, T) ∧
      (∃ st, lexStep "`|=".toList "f" [] ⟨0, 1, 0, []⟩ = .next st ∧
        st.toks = [opToken k T ("`|=".toList.drop k.length) 1 0 "f"]) ∧
      ∀ fuel stream, lex_file fuel "`|=".toList "f" [] = .done stream →
        stream.head? = some (opToken k T ("`|=".toList.drop k.length) 1 0 "f")) ∧
    longestMatch "`|=".toList = some ("`|=".toList, .Backtick_Pipe_Equals) ∧
    lex_file 1 "`|=".toList "f" [] =
      .done [⟨"`|=".toList, .Backtick_Pipe_Equals, 1, 0, "f"⟩, ⟨[], .Eof, 1, 0, "f"⟩] :=
  ⟨operator_longest_match "`|=".toList "f" [] (by decide)
    ⟨("`|".toList, .Backtick_Pipe), by decide, by decide⟩, by decide, by decide⟩

/-- Claim C2, as amended: for every entry of the operator table other than `#`,
`lex_file` on the key alone returns, with fuel for as many iterations as the
key has characters, exactly the token of the entry's kind whose lexeme is the
key, followed by `Eof`. -/
theorem operator_alone (fp : String) (kws : List (List Char)) :
    ∀ p ∈ ht, p.1 ≠ "#".toList → ∀ fuel, p.1.length ≤ fuel →
      lex_file fuel p.1 fp kws =
        .done [⟨p.1, p.2, 1, 0, fp⟩, ⟨[], .Eof, 1, 0, fp⟩] := by
  have key : ∀ p ∈ ht, p.1 ≠ "#".toList →
      lex_file p.1.length p.1 fp kws =
        .done [⟨p.1, p.2, 1, 0, fp⟩, ⟨[], .Eof, 1, 0, fp⟩] := by
    unfold ht
    simp only [List.forall_mem_cons]
    refine ⟨?_, ?_, ?_, ?_, ?_, ?_, ?_, ?_, ?_, ?_, ?_, ?_, ?_, ?_, ?_, ?_, ?_, ?_,
      ?_, ?_, ?_, ?_, ?_, ?_, ?_, ?_, ?_, ?_, ?_, ?_, ?_, ?_, ?_, ?_, ?_, ?_,
      ?_, ?_, ?_, ?_, ?_, ?_, ?_, ?_, ?_, ?_, ?_, ?_, ?_, ?_, ?_, ?_, ?_, ?_, ?_⟩
    all_goals first
      | (intro _; rfl)
      | (intro h; exact absurd rfl h)
      | (intro x hx; cases hx)
  intro p hp hne fuel hfuel
  exact lex_file_mono _ _ _ _ _ _ hfuel (key p hp hne) (by simp)

/-- Witness of `operator_alone`: the entries `**` and `*=`. -/
theorem operator_alone_witness :
    lex_file 2 "**".toList "f" [] =
        .done [⟨"**".toList, .Double_Asterisk, 1, 0, "f"⟩, ⟨[], .Eof, 1, 0, "f"⟩] ∧
      lex_file 2 "*=".toList "f" [] =
        .done [⟨"*=".toList, .Asterisk_Equals, 1, 0, "f"⟩, ⟨[], .Eof, 1, 0, "f"⟩] :=
  ⟨operator_alone "f" [] ("**".toList, .Double_Asterisk) (by decide) (by decide) 2
      (by decide),
    operator_alone "f" [] ("*=".toList, .Asterisk_Equals) (by decide) (by decide) 2
      (by decide)⟩

/-- Counterexample to claim C2 as stated: `#` is a key of the table, of kind
`Hash`, and `lex_file` on the text `#` returns no stream at all, whatever the
fuel. -/
theorem hash_alone_no_stream :
    htFind "#".toList = some .Hash ∧
      ¬ ∃ fuel stream, lex_file fuel "#".toList "f" [] = .done stream := by
  refine ⟨by decide, ?_⟩
  rintro ⟨fuel, stream, h⟩
  cases fuel with
  | zero =>
    have : lex_file 0 "#".toList "f" [] = .timeout := rfl
    rw [this] at h
    cases h
  | succ n =>
    have : lex_file (n + 1) "#".toList "f" [] = .undefined := rfl
    rw [this] at h
    cases h

/-- Claim C3, the failing input: on a plain comment that runs to the end of
the text (no newline after it) the comment loop of lines 333-336 steps over
the terminator and reads outside the buffer, so `lex_file` has undefined
behaviour instead of returning the stream `[Eof]`. -/
theorem comment_at_end_undefined (fuel : Nat) (fp : String)
    (kws : List (List Char)) :
    lex_file (fuel + 1) "# c".toList fp kws = .undefined := rfl

/-- Claim C5: for nonempty digit strings `a` and `b`, the text `a..b` gives
`Intlit(a)`, `Double_Period`, `Intlit(b)`, `Eof`; the text `a.b` gives
`Floatlit(a.b)`, `Eof`; and the text `.b` gives `Floatlit(.b)`, `Eof`, as
soon as the fuel allows three, one and one iterations. -/
theorem numeric_disambiguation (a b : List Char) (fp : String) (kws : List (List Char))
    (ha : isDigits a) (hb : isDigits b) :
    (∀ fuel, 3 ≤ fuel → lex_file fuel (a ++ '.' :: '.' :: b) fp kws =
      .done [⟨a, .Intlit, 1, 0, fp⟩, ⟨"..".toList, .Double_Period, 1, a.length + 1, fp⟩,
        ⟨b, .Intlit, 1, a.length + 1, fp⟩,
        ⟨[], .Eof, 1, a.length + 1 + (b.length + 1), fp⟩]) ∧
    (∀ fuel, 1 ≤ fuel → lex_file fuel (a ++ '.' :: b) fp kws =
      .done [⟨a ++ '.' :: b, .Floatlit, 1, 0, fp⟩,
        ⟨[], .Eof, 1, a.length + (1 + b.length), fp⟩]) ∧
    (∀ fuel, 1 ≤ fuel → lex_file fuel ('.' :: b) fp kws =
      .done [⟨'.' :: b, .Floatlit, 1, 0, fp⟩, ⟨[], .Eof, 1, b.length + 1, fp⟩]) := by
  obtain ⟨d, b', hbd⟩ := List.exists_cons_of_ne_nil hb.1
  have hd : isdigit d = true := hb.2 d (by rw [hbd]; simp)
  have hdf := isdigit_facts hd
  have hnul : isdigit NUL = false := by decide
  have hapos : 0 < a.length := List.length_pos.mpr ha.1
  refine ⟨?_, ?_, ?_⟩
  · intro fuel hfuel
    have s1 := lexStep_intlit (a ++ '.' :: '.' :: b) [] a ('.' :: '.' :: b) fp kws 1 0 [] rfl ha
      (by rw [charAt_cons_zero]; decide)
      (by simp [charAt_cons_zero, charAt_cons_succ])
      (by rw [charAt_cons_zero]; decide)
    have s2 := lexStep_operator (a ++ '.' :: '.' :: b) a ('.' :: '.' :: b) fp kws 1
      (0 + (a.length + 1)) ([] ++ [⟨a, .Intlit, 1, 0, fp⟩]) rfl
      (by simp [opStart, List.isPrefixOf]; decide) "..".toList .Double_Period (by decide)
      (by
        have e : "..".toList = ['.', '.'] := rfl
        rw [e]; simp)
      (by
        intro e he hp
        have e2 : "..".toList = ['.', '.'] := rfl
        rw [e2, hbd] at *
        exact key_prefix_length e he ['.', '.'] b' d (isdigit_not_sym hd) hp)
    have e2 : "..".toList = ['.', '.'] := rfl
    rw [if_neg (by rw [e2]; simp)] at s2
    have s3 := lexStep_intlit (a ++ '.' :: '.' :: b) (a ++ ['.', '.']) b [] fp kws 1
      (0 + (a.length + 1)) ([] ++ [⟨a, .Intlit, 1, 0, fp⟩] ++
        [⟨"..".toList, .Double_Period, 1, 0 + (a.length + 1), fp⟩]) (by simp) hb
      (by rw [charAt_nil]; exact hnul) (by rw [charAt_nil]; decide)
      (by rw [charAt_nil]; decide)
    have e3 : (a ++ ['.', '.']).length = a.length + "..".toList.length := by
      rw [e2]; simp
    rw [e3] at s3
    simp only [List.length_nil, Nat.zero_add, List.nil_append] at s1 s2 s3
    have hl2 : "..".toList.length = 2 := rfl
    have hbpos : 0 < b.length := List.length_pos.mpr hb.1
    have i1 : 0 < (a ++ '.' :: '.' :: b).length := by simp
    have i2 : a.length < (a ++ '.' :: '.' :: b).length := by simp
    have i3 : a.length + "..".toList.length < (a ++ '.' :: '.' :: b).length := by
      simp [hl2]; omega
    have i4 : (a ++ '.' :: '.' :: b).length ≤ a.length + "..".toList.length + b.length := by
      simp [hl2]; omega
    refine (lex_file_of_loop _ _ _ 3 fuel ?st1 hfuel ?loop1).trans ?fin1
    case loop1 =>
      rw [lexLoop_step _ _ _ 2 0 _ _ _ _ i1 s1, lexLoop_step _ _ _ 1 _ _ _ _ _ i2 s2,
        lexLoop_step _ _ _ 0 _ _ _ _ _ i3 s3]
      refine lexLoop_done _ _ _ _ _ ?_
      exact i4
    case fin1 => simp
  · intro fuel hfuel
    have s1 := lexStep_floatlit (a ++ '.' :: b) [] a b [] fp kws 1 0 [] (by simp) ha hb.2
      (by rw [charAt_nil]; exact hnul)
      (by rw [hbd]; simpa [charAt_cons_zero] using hdf.2.2.2.2.2.2.2.2.2.2.1)
      (by rw [hbd]; simpa [charAt_cons_zero] using hdf.2.2.2.2.2.2.2.2.2.2.2.1)
    simp only [List.length_nil, Nat.zero_add, List.nil_append] at s1
    have i1 : 0 < (a ++ '.' :: b).length := by simp
    have i2 : (a ++ '.' :: b).length ≤ a.length + (1 + b.length) := by simp; omega
    refine (lex_file_of_loop _ _ _ 1 fuel ?st2 hfuel ?loop2).trans ?fin2
    case loop2 =>
      rw [lexLoop_step _ _ _ 0 0 _ _ _ _ i1 s1]
      refine lexLoop_done _ _ _ _ _ ?_
      exact i2
    case fin2 => simp
  · intro fuel hfuel
    have s1 := lexStep_operator ('.' :: b) [] ('.' :: b) fp kws 1 0 [] rfl
      (by simp [opStart, List.isPrefixOf]; decide) ['.'] .Period (by decide) (by simp)
      (by
        intro e he hp
        rw [hbd] at hp
        exact key_prefix_length e he ['.'] b' d (isdigit_not_sym hd) hp)
    have hc : isdigit (charAt ('.' :: b) [('.' : Char)].length) = true := by
      rw [hbd]; simpa [charAt_cons_succ, charAt_cons_zero] using hd
    rw [if_pos ⟨rfl, hc⟩] at s1
    have hrun : (List.drop [('.' : Char)].length ('.' :: b)).takeWhile isdigit = b := by
      have := takeWhile_stop isdigit b [] hb.2 (Or.inr rfl)
      simpa using this
    rw [hrun] at s1
    simp only [List.length_nil, Nat.zero_add, List.nil_append] at s1
    have i1 : 0 < ('.' :: b).length := by simp
    have i2 : ('.' :: b).length ≤ [('.' : Char)].length + b.length := by simp; omega
    refine (lex_file_of_loop _ _ _ 1 fuel ?st3 hfuel ?loop3).trans ?fin3
    case loop3 =>
      rw [lexLoop_step _ _ _ 0 0 _ _ _ _ i1 s1]
      refine lexLoop_done _ _ _ _ _ ?_
      exact i2
    case fin3 => simp

/-- Witness of `numeric_disambiguation`: the texts `1..5`, `1.5` and `.5`. -/
theorem numeric_disambiguation_witness :
    (∀ fuel, 3 ≤ fuel → lex_file fuel ("1".toList ++ '.' :: '.' :: "5".toList) "f" [] =
      .done [⟨"1".toList, .Intlit, 1, 0, "f"⟩,
        ⟨"..".toList, .Double_Period, 1, "1".toList.length + 1, "f"⟩,
        ⟨"5".toList, .Intlit, 1, "1".toList.length + 1, "f"⟩,
        ⟨[], .Eof, 1, "1".toList.length + 1 + ("5".toList.length + 1), "f"⟩]) ∧
    (∀ fuel, 1 ≤ fuel → lex_file fuel ("1".toList ++ '.' :: "5".toList) "f" [] =
      .done [⟨"1".toList ++ '.' :: "5".toList, .Floatlit, 1, 0, "f"⟩,
        ⟨[], .Eof, 1, "1".toList.length + (1 + "5".toList.length), "f"⟩]) ∧
    (∀ fuel, 1 ≤ fuel → lex_file fuel ('.' :: "5".toList) "f" [] =
      .done [⟨'.' :: "5".toList, .Floatlit, 1, 0, "f"⟩,
        ⟨[], .Eof, 1, "5".toList.length + 1, "f"⟩]) :=
  numeric_disambiguation "1".toList "5".toList "f" []
    ⟨by decide, by decide⟩ ⟨by decide, by decide⟩

/-- Claim C7: whenever `lex_file` returns a stream, the stream is the tokens
the main loop appended followed by one token of kind `Eof` with the empty
lexeme, the final `row` and `col` of the scanner and the path `fp`; none of the
tokens before it has kind `Eof`. -/
theorem lex_file_eof_once (fuel : Nat) (src : List Char) (fp : String)
    (kws : List (List Char)) (stream : List Token)
    (h : lex_file fuel src fp kws = .done stream) :
    ∃ st, lexLoop src fp kws fuel ⟨0, 1, 0, []⟩ = .done st ∧
      stream = st.toks ++ [⟨[], .Eof, st.row, st.col, fp⟩] ∧
      stream ≠ [] ∧
      stream.getLast? = some ⟨[], .Eof, st.row, st.col, fp⟩ ∧
      ∀ t ∈ stream.dropLast, t.m_type ≠ .Eof := by
  unfold lex_file at h
  cases hl : lexLoop src fp kws fuel ⟨0, 1, 0, []⟩ with
  | done st =>
    rw [hl] at h
    simp only [Outcome.done.injEq] at h
    subst h
    obtain ⟨added, hadd, hne⟩ := lexLoop_extends _ _ _ _ _ _ hl
    refine ⟨st, rfl, by simp [token_alloc], by simp, by simp [token_alloc], ?_⟩
    intro t ht
    simp only [List.dropLast_concat] at ht
    rw [hadd] at ht
    simp only [List.nil_append] at ht
    exact (hne t ht).1
  | error msg => rw [hl] at h; cases h
  | undefined => rw [hl] at h; cases h
  | timeout => rw [hl] at h; cases h

/-- Witness of `lex_file_eof_once`: the text `a`, newline, `bb`. -/
theorem lex_file_eof_once_witness :
    ∃ st, lexLoop "a\nbb".toList "f" [] 3 ⟨0, 1, 0, []⟩ = .done st ∧
      [⟨"a".toList, .Ident, 1, 1, "f"⟩, ⟨"bb".toList, .Ident, 2, 1, "f"⟩,
          ⟨[], .Eof, 2, 3, "f"⟩] = st.toks ++ [⟨[], .Eof, st.row, st.col, "f"⟩] ∧
      [(⟨"a".toList, .Ident, 1, 1, "f"⟩ : Token), ⟨"bb".toList, .Ident, 2, 1, "f"⟩,
          ⟨[], .Eof, 2, 3, "f"⟩] ≠ [] ∧
      [(⟨"a".toList, .Ident, 1, 1, "f"⟩ : Token), ⟨"bb".toList, .Ident, 2, 1, "f"⟩,
          ⟨[], .Eof, 2, 3, "f"⟩].getLast? = some ⟨[], .Eof, st.row, st.col, "f"⟩ ∧
      ∀ t ∈ [(⟨"a".toList, .Ident, 1, 1, "f"⟩ : Token), ⟨"bb".toList, .Ident, 2, 1, "f"⟩,
          ⟨[], .Eof, 2, 3, "f"⟩].dropLast, t.m_type ≠ .Eof :=
  lex_file_eof_once 3 "a\nbb".toList "f" [] _ (by decide)

/-- Claim C8, the failing input: a carriage return is accumulated by the
operator rule, matches no entry of the table and is un-consumed again, so the
iteration ends in the state it started in and the main loop never ends. -/
theorem lex_file_cr_diverges (fuel : Nat) (fp : String) (kws : List (List Char)) :
    lexStep ['\r'] fp kws ⟨0, 1, 0, []⟩ = .next ⟨0, 1, 0, []⟩ ∧
      lex_file fuel ['\r'] fp kws = .timeout := by
  refine ⟨rfl, ?_⟩
  unfold lex_file
  rw [lexLoop_stuck ['\r'] fp kws ⟨0, 1, 0, []⟩ (by decide) rfl fuel]

theorem lexStep_space (src pre rest : List Char) (fp : String) (kws : List (List Char))
    (row col : Nat) (toks : List Token) (hsrc : src = pre ++ ' ' :: rest) :
    lexStep src fp kws ⟨pre.length, row, col, toks⟩ =
      .next ⟨pre.length + 1, row, col + 1, toks⟩ := by
  have h0 : charAt src pre.length = ' ' := by
    have := charAt_append_right pre (' ' :: rest) 0
    rw [Nat.add_zero, ← hsrc] at this
    rw [this, charAt_cons_zero]
  unfold lexStep
  rw [lexPragma_of_ne _ _ _ (by simp only [h0]; decide)]
  unfold lexBranch
  simp only [h0]
  rfl

/-- The identifier rule on a word `w` that no letter, digit or underscore
follows. -/
theorem lexStep_word (src pre w rest : List Char) (fp : String) (kws : List (List Char))
    (row col : Nat) (toks : List Token) (hsrc : src = pre ++ (w ++ rest))
    (hw : isWord w)
    (hr : (charAt rest 0 == '_' || isalnum (charAt rest 0)) = false) :
    lexStep src fp kws ⟨pre.length, row, col, toks⟩ =
      .next ⟨pre.length + w.length, row, col + (w.length + 1),
        toks ++ [⟨w, wordKind kws w, row, col + 1, fp⟩]⟩ := by
  obtain ⟨hfirst, hall⟩ := hw
  cases w with
  | nil =>
    exfalso
    simp only [List.getD_nil] at hfirst
    rcases hfirst with h | h <;> exact absurd h (by decide)
  | cons c w' =>
    simp only [List.getD_cons_zero] at hfirst
    have h0 : charAt src pre.length = c := by
      have := charAt_append_right pre (c :: w' ++ rest) 0
      rw [Nat.add_zero, ← hsrc] at this
      rw [this]; simp [charAt_cons_zero]
    obtain ⟨h1, h2, h3, h4, h5, h6, h7, h8⟩ := isalpha_facts hfirst
    have hid : (isalpha c || c == '_') = true := by
      rcases hfirst with h | h <;> simp [h]
    have hrun : (src.drop pre.length).takeWhile (fun d => d == '_' || isalnum d) = c :: w' := by
      have := drop_append_right pre (c :: w' ++ rest) 0
      simp only [Nat.add_zero, List.drop_zero] at this
      rw [hsrc, this]
      refine takeWhile_stop _ _ _ ?_ (Or.inl hr)
      intro d hd
      rcases hall d hd with h | h <;> simp [h]
    have hb : lexStep src fp kws ⟨pre.length, row, col, toks⟩ =
        lexIdent src fp kws ⟨pre.length, row, col, toks⟩ := by
      unfold lexStep
      rw [lexPragma_of_ne _ _ _ (by simpa [h0] using h1)]
      unfold lexBranch
      simp only [h0]
      rcases hfirst with h | h <;> simp [h1, h2, h3, h4, h5, h6, h7, h]
    rw [hb]
    unfold lexIdent
    simp only [hrun]
    have hk : (if kws.contains (c :: w') = true then TokenType.Keyword else TokenType.Ident)
        = wordKind kws (c :: w') := by
      unfold wordKind
      simp only [List.contains_eq_any_beq, List.any_eq_true, beq_iff_eq]
      by_cases hm : c :: w' ∈ kws
      · rw [if_pos hm, if_pos ⟨_, hm, rfl⟩]
      · rw [if_neg hm, if_neg]
        rintro ⟨x, hx, rfl⟩
        exact hm hx
    rw [hk]

theorem isWord_length_pos {w : List Char} (hw : isWord w) : 0 < w.length := by
  cases w with
  | nil =>
    exfalso
    have := hw.1
    simp only [List.getD_nil] at this
    rcases this with h | h <;> exact absurd h (by decide)
  | cons _ _ => simp

/-- The main loop over words separated by single spaces: each word adds one
token of its kind, in order. -/
theorem lexLoop_words (fp : String) (kws : List (List Char)) :
    ∀ (ws : List (List Char)), ws ≠ [] → (∀ w ∈ ws, isWord w) →
      ∀ (pre : List Char) (row col : Nat) (toks : List Token) (fuel : Nat),
        (joinWords ws).length ≤ fuel →
        ∃ st, lexLoop (pre ++ joinWords ws) fp kws fuel ⟨pre.length, row, col, toks⟩ = .done st ∧
          st.row = row ∧
          st.toks.map (fun t => (t.m_type, t.m_lexeme)) =
            toks.map (fun t => (t.m_type, t.m_lexeme)) ++ ws.map (fun w => (wordKind kws w, w)) := by
  intro ws
  induction ws with
  | nil => intro h; exact absurd rfl h
  | cons w ws ih =>
    intro _ hws pre row col toks fuel hfuel
    have hw : isWord w := hws w (List.mem_cons_self _ _)
    have hwpos := isWord_length_pos hw
    cases ws with
    | nil =>
      simp only [joinWords] at hfuel ⊢
      obtain ⟨f, rfl⟩ : ∃ f, fuel = f + 1 := ⟨fuel - 1, by omega⟩
      have s1 := lexStep_word (pre ++ w) pre w [] fp kws row col toks (by simp) hw
        (by rw [charAt_nil]; decide)
      rw [lexLoop_step _ _ _ f _ _ _ _ _ (by simp; omega) s1]
      refine ⟨_, lexLoop_done _ _ _ _ _ (by simp), rfl, by simp⟩
    | cons w2 ws' =>
      simp only [joinWords, List.length_append, List.length_cons] at hfuel ⊢
      obtain ⟨f, rfl⟩ : ∃ f, fuel = f + 2 := ⟨fuel - 2, by omega⟩
      have s1 := lexStep_word (pre ++ (w ++ ' ' :: joinWords (w2 :: ws'))) pre w
        (' ' :: joinWords (w2 :: ws')) fp kws row col toks rfl hw
        (by rw [charAt_cons_zero]; decide)
      have s2 := lexStep_space (pre ++ (w ++ ' ' :: joinWords (w2 :: ws'))) (pre ++ w)
        (joinWords (w2 :: ws')) fp kws row (col + (w.length + 1))
        (toks ++ [⟨w, wordKind kws w, row, col + 1, fp⟩]) (by simp)
      have e1 : (pre ++ w).length = pre.length + w.length := by simp
      rw [e1] at s2
      rw [lexLoop_step _ _ _ (f + 1) _ _ _ _ _ (by simp) s1,
        lexLoop_step _ _ _ f _ _ _ _ _ (by simp) s2]
      have e2 : pre.length + w.length + 1 = (pre ++ w ++ [' ']).length := by
        rw [List.length_append, List.length_append]; rfl
      have e3 : pre ++ (w ++ ' ' :: joinWords (w2 :: ws')) =
          (pre ++ w ++ [' ']) ++ joinWords (w2 :: ws') := by simp
      rw [e2, e3]
      obtain ⟨st, hst, hrow, htoks⟩ := ih (by simp) (fun x hx => hws x (List.mem_cons_of_mem _ hx))
        (pre ++ w ++ [' ']) row (col + (w.length + 1) + 1)
        (toks ++ [⟨w, wordKind kws w, row, col + 1, fp⟩]) f (by omega)
      refine ⟨st, hst, hrow, ?_⟩
      rw [htoks]
      simp

/-- Claim C4: for every keyword set `kws`, a word `w` alone is lexed as
`Keyword(w)` when `w` is in `kws` and as `Ident(w)` otherwise, followed by
`Eof`; and words separated by single spaces give one such token each, in
source order, followed by `Eof`. -/
theorem ident_or_keyword (kws : List (List Char)) (fp : String) :
    (∀ w, isWord w → ∀ fuel, 1 ≤ fuel →
      lex_file fuel w fp kws =
        .done [⟨w, wordKind kws w, 1, 1, fp⟩, ⟨[], .Eof, 1, w.length + 1, fp⟩]) ∧
    (∀ ws, ws ≠ [] → (∀ w ∈ ws, isWord w) → ∀ fuel, (joinWords ws).length ≤ fuel →
      ∃ stream, lex_file fuel (joinWords ws) fp kws = .done stream ∧
        stream.map (fun t => (t.m_type, t.m_lexeme)) =
          ws.map (fun w => (wordKind kws w, w)) ++ [(.Eof, [])]) := by
  constructor
  · intro w hw fuel hfuel
    have s1 := lexStep_word w [] w [] fp kws 1 0 [] (by simp) hw (by rw [charAt_nil]; decide)
    simp only [List.length_nil, Nat.zero_add, List.nil_append] at s1
    have hpos := isWord_length_pos hw
    refine (lex_file_of_loop _ _ _ 1 fuel ?st1 hfuel ?loop1).trans ?fin1
    case loop1 =>
      rw [lexLoop_step _ _ _ 0 0 _ _ _ _ hpos s1]
      refine lexLoop_done _ _ _ _ _ ?_
      exact le_refl _
    case fin1 => rfl
  · intro ws hne hws fuel hfuel
    obtain ⟨st, hst, -, htoks⟩ := lexLoop_words fp kws ws hne hws [] 1 0 [] fuel hfuel
    simp only [List.nil_append, List.length_nil, List.map_nil] at hst htoks
    refine ⟨_, lex_file_of_loop _ _ _ fuel fuel st (le_refl _) hst, ?_⟩
    simp [htoks]

/-- Witness of `ident_or_keyword`: the keyword set of `if` and `else` and the
text `if x else y`. -/
theorem ident_or_keyword_witness :
    lex_file 1 "x".toList "f" ["if".toList, "else".toList] =
        .done [⟨"x".toList, .Ident, 1, 1, "f"⟩, ⟨[], .Eof, 1, 2, "f"⟩] ∧
      ∃ stream, lex_file 11 "if x else y".toList "f" ["if".toList, "else".toList] =
          .done stream ∧
        stream.map (fun t => (t.m_type, t.m_lexeme)) =
          [(.Keyword, "if".toList), (.Ident, "x".toList), (.Keyword, "else".toList),
            (.Ident, "y".toList), (.Eof, [])] :=
  ⟨(ident_or_keyword ["if".toList, "else".toList] "f").1 "x".toList
      ⟨by decide, by decide⟩ 1 (le_refl _),
    (ident_or_keyword ["if".toList, "else".toList] "f").2
      ["if".toList, "x".toList, "else".toList, "y".toList] (by decide) (by decide) 11
      (by decide)⟩

/-! ## String literals -/

theorem trailingBackslashes_snoc (p : List Char) (x : Char) :
    trailingBackslashes (p ++ [x]) =
      if x = '\\' then trailingBackslashes p + 1 else 0 := by
  unfold trailingBackslashes
  rw [List.reverse_append, List.reverse_singleton, List.singleton_append, List.takeWhile_cons]
  by_cases h : x = '\\'
  · simp [h]
  · simp [h]

/-- The scan of `consume_until` for `"` over a content whose quotes are all
escaped stops at the quote that follows the content.  The flag `skip` is the
parity of the backslashes that end the text `p` scanned so far. -/
theorem consume_until_content (rest : List Char) :
    ∀ (c p : List Char) (skip : Bool),
      (skip = true ↔ trailingBackslashes p % 2 = 1) →
      NUL ∉ c →
      (∀ k, k < c.length → c.getD k NUL = '"' →
        trailingBackslashes (p ++ c.take k) % 2 = 1) →
      trailingBackslashes (p ++ c) % 2 = 0 →
      consume_until (· == '"') (c ++ '"' :: rest) skip = c.length := by
  intro c
  induction c with
  | nil =>
    intro p skip hskip _ _ hend
    have hs : skip = false := by
      cases skip with
      | false => rfl
      | true =>
        have := hskip.mp rfl
        rw [List.append_nil] at hend
        omega
    have hq : (('"' : Char) == NUL) = false := by decide
    simp [consume_until, hs, hq]
  | cons x c ih =>
    intro p skip hskip hnul hq hend
    have hx : (x == NUL) = false := by
      have : x ≠ NUL := fun h => hnul (by rw [h]; exact List.mem_cons_self _ _)
      simpa using this
    have hnul' : NUL ∉ c := fun h => hnul (List.mem_cons_of_mem _ h)
    have hq' : ∀ k, k < c.length → c.getD k NUL = '"' →
        trailingBackslashes ((p ++ [x]) ++ c.take k) % 2 = 1 := by
      intro k hk hck
      have := hq (k + 1) (by simpa using hk) (by simpa using hck)
      simpa using this
    have hend' : trailingBackslashes ((p ++ [x]) ++ c) % 2 = 0 := by simpa using hend
    have hstop : (!skip && x == '"') = false := by
      cases skip with
      | true => rfl
      | false =>
        by_cases hxq : x = '"'
        · have := hq 0 (by simp) (by simpa using hxq)
          rw [List.take_zero, List.append_nil] at this
          have h2 := hskip.mpr this
          cases h2
        · simp [hxq]
    have hsnoc := trailingBackslashes_snoc p x
    simp only [List.cons_append, consume_until, hx, hstop, Bool.false_eq_true, if_false,
      List.length_cons, List.append_eq]
    by_cases hb : x = '\\'
    · rw [if_pos hb] at hsnoc
      cases skip with
      | true =>
        have hodd := hskip.mp rfl
        simp only [hb, beq_self_eq_true, Bool.and_self, if_true]
        rw [ih (p ++ [x]) false (by simp; omega) hnul' hq' hend']
      | false =>
        have heven : trailingBackslashes p % 2 ≠ 1 := fun h => by
          have := hskip.mpr h; cases this
        simp only [hb, beq_self_eq_true, Bool.false_and, Bool.false_eq_true, if_false, if_true]
        rw [ih (p ++ [x]) true (by simp; omega) hnul' hq' hend']
    · rw [if_neg hb] at hsnoc
      have hb' : (x == '\\') = false := by simpa using hb
      simp only [hb', Bool.and_false, Bool.false_eq_true, if_false]
      rw [ih (p ++ [x]) false (by simp [hsnoc]) hnul' hq' hend']

/-- The string rule on a literal with content `c`. -/
theorem lexStep_strlit (src pre c rest : List Char) (fp : String) (kws : List (List Char))
    (row col : Nat) (toks : List Token) (hsrc : src = pre ++ '"' :: (c ++ '"' :: rest))
    (hc : isStrContent c) :
    lexStep src fp kws ⟨pre.length, row, col, toks⟩ =
      .next ⟨pre.length + (1 + c.length + 1), row, col + (1 + c.length + 1),
        toks ++ [⟨c, .Strlit, row, col, fp⟩]⟩ := by
  have h0 : charAt src pre.length = '"' := by
    have := charAt_append_right pre ('"' :: (c ++ '"' :: rest)) 0
    rw [Nat.add_zero, ← hsrc] at this
    rw [this, charAt_cons_zero]
  have hdrop : src.drop (pre.length + 1) = c ++ '"' :: rest := by
    rw [hsrc, drop_append_right]; rfl
  have hlen : consume_until (· == '"') (c ++ '"' :: rest) false = c.length :=
    consume_until_content rest c [] false (by simp [trailingBackslashes]) hc.1
      (by simpa using hc.2.1) (by simpa using hc.2.2)
  unfold lexStep
  rw [lexPragma_of_ne _ _ _ (by simp only [h0]; decide)]
  unfold lexBranch
  simp only [h0]
  rw [if_neg (by decide), if_neg (by decide), if_neg (by decide), if_pos (by decide)]
  unfold lexStrlit
  simp only [hdrop, hlen, token_alloc, List.take_left']

/-- Claim C6: for every content `c` without `NUL` in which every `"` comes
right after an odd-length run of backslashes and which does not end in an
odd-length run of backslashes, `lex_file` on `"`, `c`, `"` returns the
`Strlit` whose lexeme is `c` itself, escapes kept as written, followed by
`Eof`. -/
theorem string_literal_capture (c : List Char) (fp : String) (kws : List (List Char))
    (hc : isStrContent c) (fuel : Nat) (hfuel : 1 ≤ fuel) :
    lex_file fuel ('"' :: (c ++ ['"'])) fp kws =
      .done [⟨c, .Strlit, 1, 0, fp⟩, ⟨[], .Eof, 1, 1 + c.length + 1, fp⟩] := by
  have s1 := lexStep_strlit ('"' :: (c ++ ['"'])) [] c [] fp kws 1 0 [] rfl hc
  simp only [List.length_nil, Nat.zero_add, List.nil_append] at s1
  refine (lex_file_of_loop _ _ _ 1 fuel ?st1 hfuel ?loop1).trans ?fin1
  case loop1 =>
    rw [lexLoop_step _ _ _ 0 0 _ _ _ _ (by simp) s1]
    refine lexLoop_done _ _ _ _ _ ?_
    simp only [List.length_cons, List.length_append, List.length_nil]
    omega
  case fin1 => rfl

/-- Witness of `string_literal_capture`: the text `"a\"b"` of the
specification, whose content is `a`, backslash, quote, `b`. -/
theorem string_literal_capture_witness :
    lex_file 1 ('"' :: (['a', '\\', '"', 'b'] ++ ['"'])) "f" [] =
      .done [⟨['a', '\\', '"', 'b'], .Strlit, 1, 0, "f"⟩,
        ⟨[], .Eof, 1, 1 + ['a', '\\', '"', 'b'].length + 1, "f"⟩] :=
  string_literal_capture ['a', '\\', '"', 'b'] "f" [] (by decide) 1 (le_refl _)

namespace Lexer
/-! ## The token stream -/

theorem seg_bounds {heap : List Node} :
    ∀ {ts : List Token} {lo a : Nat} {t : Token} {tl : Nat}, Seg heap lo a t ts tl →
      lo ≤ a ∧ a ≤ tl ∧ tl + 1 ≤ heap.length ∧ a + ts.length + 1 ≤ heap.length := by
  intro ts
  induction ts with
  | nil =>
    intro lo a t tl h
    obtain ⟨h1, h2, h3⟩ := h
    have := (List.getElem?_eq_some_iff.mp h2).1
    subst h3
    simp
    omega
  | cons t2 ts ih =>
    intro lo a t tl h
    obtain ⟨h1, nxt, h2, h3⟩ := h
    have := ih h3
    simp only [List.length_cons]
    omega

theorem seg_mono {heap : List Node} :
    ∀ {ts : List Token} {lo lo' a : Nat} {t : Token} {tl : Nat}, lo' ≤ lo →
      Seg heap lo a t ts tl → Seg heap lo' a t ts tl := by
  intro ts
  cases ts with
  | nil => intro lo lo' a t tl hle h; exact ⟨by have := h.1; omega, h.2⟩
  | cons t2 ts => intro lo lo' a t tl hle h; exact ⟨by have := h.1; omega, h.2⟩

/-- The walk from the head of a segment meets its tokens. -/
theorem seg_tokensFrom {heap : List Node} :
    ∀ {ts : List Token} {lo a : Nat} {t : Token} {tl : Nat} (k : Nat), Seg heap lo a t ts tl →
      ts.length + 1 ≤ k → Lexer.tokensFrom heap k (some a) = t :: ts := by
  intro ts
  induction ts with
  | nil =>
    intro lo a t tl k h hk
    obtain ⟨k, rfl⟩ : ∃ j, k = j + 1 := ⟨k - 1, by simp at hk; omega⟩
    obtain ⟨-, h2, -⟩ := h
    cases k <;> simp [Lexer.tokensFrom, h2]
  | cons t2 ts ih =>
    intro lo a t tl k h hk
    obtain ⟨k, rfl⟩ : ∃ j, k = j + 1 := ⟨k - 1, by simp at hk; omega⟩
    obtain ⟨-, nxt, h2, h3⟩ := h
    simp only [Lexer.tokensFrom, h2]
    rw [ih k h3 (by simpa using hk)]

/-- The pointer walk of `peek` along a segment. -/
theorem seg_peek {heap : List Node} :
    ∀ {ts : List Token} {lo a : Nat} {t : Token} {tl : Nat} (n : Nat), Seg heap lo a t ts tl →
      (match peekPtr heap n (some a) with
        | .done none => Outcome.done none
        | .done (some b) =>
          match heap[b]? with
          | none => .undefined
          | some nd => .done (some nd.tok)
        | .error msg => .error msg
        | .undefined => .undefined
        | .timeout => .timeout) = Outcome.done ((t :: ts)[n]?) := by
  intro ts
  induction ts with
  | nil =>
    intro lo a t tl n h
    obtain ⟨-, h2, -⟩ := h
    cases n with
    | zero => simp [peekPtr, h2]
    | succ n => cases n <;> simp [peekPtr, h2]
  | cons t2 ts ih =>
    intro lo a t tl n h
    obtain ⟨-, nxt, h2, h3⟩ := h
    cases n with
    | zero => simp [peekPtr, h2]
    | succ n =>
      simp only [peekPtr, h2, List.getElem?_cons_succ]
      exact ih n h3

/-- Linking a fresh cell after the last cell of a segment extends the segment
by the new token. -/
theorem seg_append {heap : List Node} (new : Token) :
    ∀ {ts : List Token} {lo a : Nat} {t : Token} {tl : Nat} (nd : Node),
      Seg heap lo a t ts tl → heap[tl]? = some nd →
      Seg (heap.set tl { nd with m_next := some heap.length } ++ [⟨new, none⟩]) lo a t
        (ts ++ [new]) heap.length := by
  intro ts
  induction ts with
  | nil =>
    intro lo a t tl nd h hnd
    obtain ⟨h1, h2, h3⟩ := h
    subst h3
    rw [h2] at hnd
    cases hnd
    have hlt : tl < heap.length := (List.getElem?_eq_some_iff.mp h2).1
    refine ⟨h1, heap.length, ?_, by omega, ?_, rfl⟩
    · rw [List.getElem?_append_left (by simpa using hlt)]
      simp [List.getElem?_set, hlt]
    · rw [List.getElem?_append_right (by simp)]
      simp
  | cons t2 ts ih =>
    intro lo a t tl nd h hnd
    obtain ⟨h1, nxt, h2, h3⟩ := h
    have hb := seg_bounds h3
    have hlt : a < heap.length := (List.getElem?_eq_some_iff.mp h2).1
    refine ⟨h1, nxt, ?_, ih nd h3 hnd⟩
    rw [List.getElem?_append_left (by simpa using hlt)]
    rw [List.getElem?_set_ne (by omega)]
    exact h2

theorem inv_of_none {L : Lexer} {ts : List Token} (hd : L.m_hd = none) (h : Inv L ts) :
    ts = [] := by
  unfold Inv at h
  rw [hd] at h
  cases ts with
  | nil => rfl
  | cons _ _ => exact absurd h id

theorem inv_of_some {L : Lexer} {ts : List Token} {a : Nat} (hd : L.m_hd = some a)
    (h : Inv L ts) :
    ∃ t ts' tl, ts = t :: ts' ∧ L.m_tl = some tl ∧ Seg L.heap 0 a t ts' tl := by
  unfold Inv at h
  rw [hd] at h
  cases ts with
  | nil => exact absurd h id
  | cons t ts' =>
    obtain ⟨tl, h1, h2⟩ := h
    exact ⟨t, ts', tl, rfl, h1, h2⟩

theorem inv_mk_none {L : Lexer} (hd : L.m_hd = none) : Inv L [] := by
  unfold Inv
  rw [hd]
  trivial

theorem inv_mk_some {L : Lexer} {a tl : Nat} {t : Token} {ts : List Token}
    (hd : L.m_hd = some a) (htl : L.m_tl = some tl) (hseg : Seg L.heap 0 a t ts tl) :
    Inv L (t :: ts) := by
  unfold Inv
  rw [hd]
  exact ⟨tl, htl, hseg⟩

theorem inv_tokens {L : Lexer} {ts : List Token} (h : Inv L ts) : L.tokens = ts := by
  unfold Lexer.tokens
  cases hd : L.m_hd with
  | none =>
    rw [inv_of_none hd h]
    cases L.heap.length <;> rfl
  | some a =>
    obtain ⟨t, ts', tl, rfl, -, hseg⟩ := inv_of_some hd h
    exact seg_tokensFrom _ hseg (by have := seg_bounds hseg; omega)

theorem inv_new : Inv Lexer.new [] := inv_mk_none rfl

theorem inv_append {L : Lexer} {ts : List Token} (h : Inv L ts) (t : Token) :
    ∃ L', L.append t = .done L' ∧ Inv L' (ts ++ [t]) := by
  cases hd : L.m_hd with
  | none =>
    rw [inv_of_none hd h]
    refine ⟨_, by simp only [Lexer.append, hd]; rfl, ?_⟩
    refine inv_mk_some rfl rfl ⟨Nat.zero_le _, ?_, rfl⟩
    rw [List.getElem?_append_right (le_refl _)]
    simp
  | some a =>
    obtain ⟨t0, ts0, tl, rfl, htl, hseg⟩ := inv_of_some hd h
    have hb := seg_bounds hseg
    have hlt : tl < L.heap.length := by omega
    obtain ⟨nd, hnd⟩ : ∃ nd, L.heap[tl]? = some nd :=
      ⟨L.heap[tl], List.getElem?_eq_getElem hlt⟩
    refine ⟨_, by simp only [Lexer.append, hd, htl, hnd]; rfl, ?_⟩
    exact inv_mk_some rfl rfl (seg_append t nd hseg hnd)

theorem inv_next {L : Lexer} {ts : List Token} (h : Inv L ts) :
    ∃ L', L.next = .done (ts.head?, L') ∧ Inv L' ts.tail := by
  cases hd : L.m_hd with
  | none =>
    rw [inv_of_none hd h]
    exact ⟨L, by simp [Lexer.next, hd], inv_mk_none hd⟩
  | some a =>
    obtain ⟨t0, ts0, tl, rfl, htl, hseg⟩ := inv_of_some hd h
    cases ts0 with
    | nil =>
      obtain ⟨-, hcell, -⟩ := hseg
      refine ⟨_, by simp only [Lexer.next, hd, hcell]; rfl, ?_⟩
      exact inv_mk_none rfl
    | cons t2 ts2 =>
      obtain ⟨-, nxt, hcell, hrest⟩ := hseg
      refine ⟨_, by simp only [Lexer.next, hd, hcell]; rfl, ?_⟩
      exact inv_mk_some rfl (by simpa using htl) (seg_mono (Nat.zero_le _) hrest)

theorem inv_discard {L : Lexer} {ts : List Token} (h : Inv L ts) :
    ∃ L', L.discard = .done L' ∧ Inv L' ts.tail := by
  cases hd : L.m_hd with
  | none =>
    rw [inv_of_none hd h]
    exact ⟨L, by simp [Lexer.discard, hd], inv_mk_none hd⟩
  | some a =>
    obtain ⟨t0, ts0, tl, rfl, htl, hseg⟩ := inv_of_some hd h
    cases ts0 with
    | nil =>
      obtain ⟨-, hcell, -⟩ := hseg
      refine ⟨_, by simp only [Lexer.discard, hd, hcell]; rfl, ?_⟩
      exact inv_mk_none rfl
    | cons t2 ts2 =>
      obtain ⟨-, nxt, hcell, hrest⟩ := hseg
      refine ⟨_, by simp only [Lexer.discard, hd, hcell]; rfl, ?_⟩
      exact inv_mk_some rfl htl (seg_mono (Nat.zero_le _) hrest)

theorem inv_peek {L : Lexer} {ts : List Token} (h : Inv L ts) (n : Nat) :
    L.peek n = .done (ts[n]?) := by
  unfold Lexer.peek
  cases hd : L.m_hd with
  | none =>
    rw [inv_of_none hd h]
    cases n <;> simp [peekPtr]
  | some a =>
    obtain ⟨t0, ts0, tl, rfl, -, hseg⟩ := inv_of_some hd h
    exact seg_peek n hseg

/-- Every sequence of calls from the empty stream ends in a stream that
satisfies the representation invariant. -/
theorem inv_run (ops : List Op) :
    ∀ (L : Lexer) (ts : List Token), Inv L ts →
      ∃ L' ts', Lexer.run ops L = .done L' ∧ Inv L' ts' := by
  induction ops with
  | nil => intro L ts h; exact ⟨L, ts, rfl, h⟩
  | cons op ops ih =>
    intro L ts h
    cases op with
    | append tok =>
      obtain ⟨L', h1, h2⟩ := inv_append h tok
      obtain ⟨L2, ts2, h3, h4⟩ := ih L' _ h2
      exact ⟨L2, ts2, by simp only [Lexer.run, Lexer.apply, h1, h3], h4⟩
    | next =>
      obtain ⟨L', h1, h2⟩ := inv_next h
      obtain ⟨L2, ts2, h3, h4⟩ := ih L' _ h2
      exact ⟨L2, ts2, by simp only [Lexer.run, Lexer.apply, h1, h3], h4⟩
    | discard =>
      obtain ⟨L', h1, h2⟩ := inv_discard h
      obtain ⟨L2, ts2, h3, h4⟩ := ih L' _ h2
      exact ⟨L2, ts2, by simp only [Lexer.run, Lexer.apply, h1, h3], h4⟩
    | peek n =>
      have h1 := inv_peek h n
      obtain ⟨L2, ts2, h3, h4⟩ := ih L _ h
      exact ⟨L2, ts2, by simp only [Lexer.run, Lexer.apply, h1, h3], h4⟩


/-- On a stream that satisfies the invariant, `append` adds the token at the
end of the list of tokens reachable from the head. -/
theorem append_tokens {L : Lexer} {ts : List Token} (h : Inv L ts) (t : Token) :
    ∃ L', L.append t = .done L' ∧ L'.tokens = L.tokens ++ [t] := by
  obtain ⟨L', h1, h2⟩ := inv_append h t
  exact ⟨L', h1, by rw [inv_tokens h2, inv_tokens h]⟩

theorem inv_run_appends (ts : List Token) :
    ∀ (L : Lexer) (pre : List Token), Inv L pre →
      ∃ L', Lexer.run (ts.map .append) L = .done L' ∧ Inv L' (pre ++ ts) := by
  induction ts with
  | nil => intro L pre h; exact ⟨L, rfl, by simpa using h⟩
  | cons t ts ih =>
    intro L pre h
    obtain ⟨L1, h1, h2⟩ := inv_append h t
    obtain ⟨L2, h3, h4⟩ := ih L1 _ h2
    exact ⟨L2, by simp only [List.map_cons, Lexer.run, Lexer.apply, h1, h3], by simpa using h4⟩

theorem inv_drain :
    ∀ (ts : List Token) (L : Lexer), Inv L ts →
      L.drain (ts.length + 1) = .done (ts.map some ++ [none]) := by
  intro ts
  induction ts with
  | nil =>
    intro L h
    obtain ⟨L', h1, -⟩ := inv_next h
    simp only [List.length_nil, Nat.zero_add, Lexer.drain, h1]
    rfl
  | cons t ts ih =>
    intro L h
    obtain ⟨L', h1, h2⟩ := inv_next h
    have := ih L' h2
    simp only [List.length_cons, Lexer.drain, h1, List.tail_cons] at this ⊢
    rw [this]
    rfl

end Lexer

/-! ## The claims on the token stream -/

/-- Claim C9, the failing input: after `append(t)` and `discard()` on the
empty stream no token is reachable from the head, and the counter `m_len` is
still 1: `discard` (lines 85-89) removes the head without decrementing the
counter, unlike `next` (line 81). -/
theorem discard_keeps_counter (t : Token) :
    ∃ L, Lexer.run [.append t, .discard] Lexer.new = .done L ∧
      L.tokens = [] ∧ L.m_len = 1 :=
  ⟨⟨[⟨t, none⟩], none, some 0, 1⟩, rfl, rfl, rfl⟩

/-- Claim C10: the stream refines a FIFO list.  After every sequence of calls
from the empty stream, with the stream read as the list of tokens reachable
from its head: `append` adds the token at the end, `next` returns the first
token (null on the empty list) and leaves the tail, `discard` leaves the
tail, and `peek(n)` returns the token at index `n` or null when there is none;
and after appending the tokens `ts` to the empty stream, `ts.length + 1`
calls of `next` return the tokens of `ts` in order and then null. -/
theorem lexer_refines_fifo :
    (∀ ops : List Lexer.Op, ∃ L, Lexer.run ops Lexer.new = .done L ∧
      (∀ t, ∃ L', L.append t = .done L' ∧ L'.tokens = L.tokens ++ [t]) ∧
      (∃ L', L.next = .done (L.tokens.head?, L') ∧ L'.tokens = L.tokens.tail) ∧
      (∃ L', L.discard = .done L' ∧ L'.tokens = L.tokens.tail) ∧
      (∀ n, L.peek n = .done (L.tokens[n]?))) ∧
    (∀ ts : List Token, ∃ L, Lexer.run (ts.map .append) Lexer.new = .done L ∧
      L.tokens = ts ∧ L.drain (ts.length + 1) = .done (ts.map some ++ [none])) := by
  constructor
  · intro ops
    obtain ⟨L, ts, hrun, hinv⟩ := Lexer.inv_run ops Lexer.new [] Lexer.inv_new
    refine ⟨L, hrun, fun t => Lexer.append_tokens hinv t, ?_, ?_, ?_⟩
    · obtain ⟨L', h1, h2⟩ := Lexer.inv_next hinv
      exact ⟨L', by rw [Lexer.inv_tokens hinv]; exact h1, by rw [Lexer.inv_tokens h2, Lexer.inv_tokens hinv]⟩
    · obtain ⟨L', h1, h2⟩ := Lexer.inv_discard hinv
      exact ⟨L', h1, by rw [Lexer.inv_tokens h2, Lexer.inv_tokens hinv]⟩
    · intro n
      rw [Lexer.inv_tokens hinv]
      exact Lexer.inv_peek hinv n
  · intro ts
    obtain ⟨L, hrun, hinv⟩ := Lexer.inv_run_appends ts Lexer.new [] Lexer.inv_new
    rw [List.nil_append] at hinv
    exact ⟨L, hrun, Lexer.inv_tokens hinv, Lexer.inv_drain ts L hinv⟩

/-! ## The flat key -/

theorem sanatize_eq_flatKey (p : List Char) (hp : NUL ∉ p) :
    sanatize_stdlib_bake_fp p = flatKey p := by
  induction p with
  | nil => rfl
  | cons c p ih =>
    have hc : (c == NUL) = false := by
      have : c ≠ NUL := fun h => hp (by rw [h]; exact List.mem_cons_self _ _)
      simpa using this
    have hp' : NUL ∉ p := fun h => hp (List.mem_cons_of_mem _ h)
    simp only [sanatize_stdlib_bake_fp, hc, Bool.false_eq_true, if_false, flatKey,
      List.map_cons, Bool.or_eq_true, beq_iff_eq]
    rw [ih hp']
    rfl

theorem flatKey_no_nul (p : List Char) (hp : NUL ∉ p) : NUL ∉ flatKey p := by
  intro h
  unfold flatKey at h
  obtain ⟨c, hc, he⟩ := List.mem_map.mp h
  split at he
  · exact absurd he (by decide)
  · exact hp (he ▸ hc)

theorem flatKey_clean (p : List Char) : '/' ∉ flatKey p ∧ '.' ∉ flatKey p := by
  constructor <;>
  · intro h
    unfold flatKey at h
    obtain ⟨c, hc, he⟩ := List.mem_map.mp h
    split at he
    · exact absurd he (by decide)
    · rename_i hn
      exact hn (by simp [he])

theorem flatKey_idem (p : List Char) : flatKey (flatKey p) = flatKey p := by
  unfold flatKey
  rw [List.map_map]
  apply List.map_congr_left
  intro c _
  simp only [Function.comp]
  by_cases h : c = '/' ∨ c = '.'
  · rw [if_pos h]
    rw [if_neg (by decide)]
  · rw [if_neg h, if_neg h]

/-- Claim C16: on a path `p` without `NUL`, `sanatize_stdlib_bake_fp` is the
character-wise map that sends `/` and `.` to `_` and every other character to
itself: the result has the length of `p`, position `i` holds `_` where `p` has
`/` or `.` and the character of `p` otherwise, the result has no `/` and no
`.`, and applying the function twice gives what applying it once gives. -/
theorem sanatize_is_charwise_map (p : List Char) (hp : NUL ∉ p) :
    sanatize_stdlib_bake_fp p = p.map (fun c => if c = '/' ∨ c = '.' then '_' else c) ∧
      (sanatize_stdlib_bake_fp p).length = p.length ∧
      (∀ i, i < p.length → (sanatize_stdlib_bake_fp p)[i]? =
        some (if p.getD i NUL = '/' ∨ p.getD i NUL = '.' then '_' else p.getD i NUL)) ∧
      '/' ∉ sanatize_stdlib_bake_fp p ∧ '.' ∉ sanatize_stdlib_bake_fp p ∧
      sanatize_stdlib_bake_fp (sanatize_stdlib_bake_fp p) = sanatize_stdlib_bake_fp p := by
  have h := sanatize_eq_flatKey p hp
  refine ⟨h, ?_, ?_, ?_, ?_, ?_⟩
  · rw [h]; simp [flatKey]
  · intro i hi
    rw [h]
    simp [flatKey, List.getElem?_map, List.getD_eq_getElem?_getD, List.getElem?_eq_getElem hi]
  · rw [h]; exact (flatKey_clean p).1
  · rw [h]; exact (flatKey_clean p).2
  · rw [h, sanatize_eq_flatKey _ (flatKey_no_nul p hp), flatKey_idem]

/-- Witness of `sanatize_is_charwise_map`: the path `std/io.rl`. -/
theorem sanatize_is_charwise_map_witness :
    sanatize_stdlib_bake_fp "std/io.rl".toList = "std_io_rl".toList ∧
      (sanatize_stdlib_bake_fp "std/io.rl".toList).length = "std/io.rl".toList.length ∧
      '/' ∉ sanatize_stdlib_bake_fp "std/io.rl".toList ∧
      '.' ∉ sanatize_stdlib_bake_fp "std/io.rl".toList :=
  have h := sanatize_is_charwise_map "std/io.rl".toList (by decide)
  ⟨h.1.trans (by decide), h.2.1, h.2.2.2.1, h.2.2.2.2.1⟩

/-- The first token an iteration from the initial state appends is the first
token of every stream `lex_file` returns. -/
theorem lex_file_head (src : List Char) (fp : String) (kws : List (List Char))
    (st : LexState) (tok : Token) (more : List Token) (hpos : 0 < src.length)
    (hst : lexStep src fp kws ⟨0, 1, 0, []⟩ = .next st) (htoks : st.toks = tok :: more) :
    ∀ fuel stream, lex_file fuel src fp kws = .done stream → stream.head? = some tok := by
  intro fuel stream hret
  unfold lex_file at hret
  cases fuel with
  | zero => simp [lexLoop, hpos] at hret
  | succ n =>
    simp only [lexLoop, hpos, if_true, hst] at hret
    cases hl : lexLoop src fp kws n st with
    | done st' =>
      rw [hl] at hret
      simp only [Outcome.done.injEq] at hret
      obtain ⟨added, hadd, -⟩ := lexLoop_extends _ _ _ _ _ _ hl
      rw [← hret, hadd, htoks]
      simp
    | error msg => rw [hl] at hret; cases hret
    | undefined => rw [hl] at hret; cases hret
    | timeout => rw [hl] at hret; cases hret

/-! ## The claims on positions and literals -/

/-- Claim C11, the failing inputs.  In the text `"`, newline, `"`, space, `x`
one newline precedes the identifier `x`, which starts on line 2, yet its token
has row 1: the string rule never counts the newlines inside a literal.  In
the text of three backticks, newline, three backticks the block starts on
line 1, yet its token has row 2: the token is made after the block is
scanned. -/
theorem row_ignores_literal_newlines (fp : String) :
    lex_file 3 ['"', '\n', '"', ' ', 'x'] fp [] =
        .done [⟨['\n'], .Strlit, 1, 0, fp⟩, ⟨['x'], .Ident, 1, 5, fp⟩,
          ⟨[], .Eof, 1, 6, fp⟩] ∧
      1 + newlines (['"', '\n', '"', ' ', 'x'].take 4) = 2 ∧
      lex_file 1 ("```".toList ++ '\n' :: "```".toList) fp [] =
        .done [⟨['\n'], .Multiline_Bash, 2, 0, fp⟩, ⟨[], .Eof, 2, 0, fp⟩] ∧
      1 + newlines (("```".toList ++ '\n' :: "```".toList).take 0) = 1 :=
  ⟨rfl, rfl, rfl, rfl⟩

/-- Claim C12, the failing inputs.  In the text `x y` the identifier `y` is
the third character of its line, yet its token has col 4: the identifier rule
adds one more than the length of the word to `col`.  In the text `+` the
operator is the first character, yet its token has col 0. -/
theorem col_drifts (fp : String) :
    lex_file 3 "x y".toList fp [] =
        .done [⟨['x'], .Ident, 1, 1, fp⟩, ⟨['y'], .Ident, 1, 4, fp⟩,
          ⟨[], .Eof, 1, 5, fp⟩] ∧
      lex_file 1 "+".toList fp [] =
        .done [⟨['+'], .Plus, 1, 0, fp⟩, ⟨[], .Eof, 1, 0, fp⟩] :=
  ⟨rfl, rfl⟩

/-- Claim C14, the failing inputs: a string literal and a character literal
that are opened and never closed.  `lex_file` raises no error: it returns the
rest of the text as a `Strlit` (a `Charlit`) token followed by `Eof`, the
cursor having moved one past the end of the text. -/
theorem unterminated_literal_returns (fp : String) (kws : List (List Char)) :
    lex_file 1 ('"' :: "abc".toList) fp kws =
        .done [⟨"abc".toList, .Strlit, 1, 0, fp⟩, ⟨[], .Eof, 1, 5, fp⟩] ∧
      lex_file 1 ('\'' :: "abc".toList) fp kws =
        .done [⟨"abc".toList, .Charlit, 1, 0, fp⟩, ⟨[], .Eof, 1, 5, fp⟩] ∧
      lexLoop ('"' :: "abc".toList) fp kws 1 ⟨0, 1, 0, []⟩ =
        .done ⟨5, 1, 5, [⟨"abc".toList, .Strlit, 1, 0, fp⟩]⟩ :=
  ⟨rfl, rfl, rfl⟩

/-- Counterexample to claim C17 as stated: on the text `1.x` the first token
is the `Floatlit` with lexeme `1.`, not `Intlit(1)` followed by `Period`. -/
theorem digits_dot_letter_is_float :
    lex_file 2 "1.x".toList "f" [] =
      .done [⟨"1.".toList, .Floatlit, 1, 0, "f"⟩, ⟨"x".toList, .Ident, 1, 3, "f"⟩,
        ⟨[], .Eof, 1, 4, "f"⟩] := by
  decide

/-- Claim C17, as amended: for a nonempty digit string `a`, the text `a.`
gives `Intlit(a)`, `Period`, `Eof`; and when a character `c` that is not a
digit, not `.` and not `NUL` follows the `.`, the first iteration appends the
`Floatlit` with lexeme `a.`, which is the first token of every stream
`lex_file` returns: the numeric rule starts a fraction whenever the character
after the `.` exists and is not `.`. -/
theorem digits_dot (a : List Char) (fp : String) (kws : List (List Char))
    (ha : isDigits a) :
    (∀ fuel, 2 ≤ fuel → lex_file fuel (a ++ ['.']) fp kws =
      .done [⟨a, .Intlit, 1, 0, fp⟩, ⟨['.'], .Period, 1, a.length + 1, fp⟩,
        ⟨[], .Eof, 1, a.length + 1, fp⟩]) ∧
    (∀ (c : Char) (r : List Char), isdigit c = false → c ≠ '.' → c ≠ NUL →
      lexStep (a ++ '.' :: c :: r) fp kws ⟨0, 1, 0, []⟩ =
          .next ⟨a.length + 1, 1, a.length + 1, [⟨a ++ ['.'], .Floatlit, 1, 0, fp⟩]⟩ ∧
        ∀ fuel stream, lex_file fuel (a ++ '.' :: c :: r) fp kws = .done stream →
          stream.head? = some ⟨a ++ ['.'], .Floatlit, 1, 0, fp⟩) := by
  constructor
  · intro fuel hfuel
    have s1 := lexStep_intlit (a ++ ['.']) [] a ['.'] fp kws 1 0 [] rfl ha
      (by rw [charAt_cons_zero]; decide)
      (by simp [charAt_cons_succ, charAt_nil])
      (by rw [charAt_cons_zero]; decide)
    have s2 := lexStep_operator (a ++ ['.']) a ['.'] fp kws 1
      (0 + (a.length + 1)) ([] ++ [⟨a, .Intlit, 1, 0, fp⟩]) rfl
      (by decide) ['.'] .Period (by decide) (by simp)
      (by
        intro e he hp
        have := hp.length_le
        simpa using this)
    rw [if_neg (by
      rintro ⟨-, h⟩
      simp only [List.length_singleton, charAt_cons_succ, charAt_nil] at h
      exact absurd h (by decide))] at s2
    simp only [List.length_nil, Nat.zero_add, List.nil_append, List.length_singleton] at s1 s2
    have i1 : 0 < (a ++ ['.']).length := by simp
    have i2 : a.length < (a ++ ['.']).length := by simp
    have i3 : (a ++ ['.']).length ≤ a.length + 1 := by simp
    refine (lex_file_of_loop _ _ _ 2 fuel ?st1 hfuel ?loop1).trans ?fin1
    case loop1 =>
      rw [lexLoop_step _ _ _ 1 0 _ _ _ _ i1 s1, lexLoop_step _ _ _ 0 _ _ _ _ _ i2 s2]
      refine lexLoop_done _ _ _ _ _ ?_
      exact i3
    case fin1 => simp
  · intro c r hc hdot hnul
    have s1 := lexStep_floatlit (a ++ '.' :: c :: r) [] a [] (c :: r) fp kws 1 0 [] rfl ha
      (by simp) (by rw [charAt_cons_zero]; exact hc)
      (by simpa [charAt_cons_zero] using hnul) (by simpa [charAt_cons_zero] using hdot)
    simp only [List.length_nil, Nat.zero_add, List.nil_append, Nat.add_zero] at s1
    exact ⟨s1, lex_file_head _ _ _ _ _ [] (by simp) s1 rfl⟩

/-- Witness of `digits_dot`: the texts `1.` and `1.x`. -/
theorem digits_dot_witness :
    lex_file 2 ("1".toList ++ ['.']) "f" [] =
        .done [⟨"1".toList, .Intlit, 1, 0, "f"⟩, ⟨['.'], .Period, 1, "1".toList.length + 1, "f"⟩,
          ⟨[], .Eof, 1, "1".toList.length + 1, "f"⟩] ∧
      lexStep ("1".toList ++ '.' :: 'x' :: []) "f" [] ⟨0, 1, 0, []⟩ =
        .next ⟨"1".toList.length + 1, 1, "1".toList.length + 1,
          [⟨"1".toList ++ ['.'], .Floatlit, 1, 0, "f"⟩]⟩ :=
  ⟨(digits_dot "1".toList "f" [] ⟨by decide, by decide⟩).1 2 (le_refl _),
    ((digits_dot "1".toList "f" [] ⟨by decide, by decide⟩).2 'x' [] (by decide) (by decide)
      (by decide)).1⟩

/-! ## Pragmas and script blocks -/

/-- The guard `i < src.size()-2` holds when two more characters follow the
cursor, for a text whose size fits a `size_t`. -/
theorem guard_of_lt (src : List Char) (i : Nat) (hsize : src.length < 2 ^ 64)
    (h : i + 2 < src.length) : decide (i < sizeMinus2 src) = true := by
  unfold sizeMinus2
  have e : (2 : Nat) ^ 64 = 18446744073709551616 := by norm_num
  rw [e] at hsize ⊢
  simp only [decide_eq_true_eq]
  omega

theorem takeWhile_nil_of_nul (p : Char → Bool) (hp : p NUL = false) (src : List Char)
    (i : Nat) (h : charAt src i = NUL) : (src.drop i).takeWhile p = [] := by
  cases hd : src.drop i with
  | nil => rfl
  | cons c rest =>
    have : charAt src i = c := by
      have := charAt_drop src i 0
      rw [hd, charAt_cons_zero, Nat.add_zero] at this
      exact this.symm
    rw [h] at this
    subst this
    simp [List.takeWhile_cons, hp]

/-- At the terminator the cascade reaches the operator rule, which
accumulates nothing and leaves the state as it is. -/
theorem lexBranch_nul (src : List Char) (fp : String) (kws : List (List Char))
    (lexeme : Nat) (st : LexState) (h : charAt src st.i = NUL) :
    lexBranch src fp kws lexeme st = .next st := by
  unfold lexBranch
  rw [h]
  rw [if_neg (by decide), if_neg (by decide), if_neg (by decide), if_neg (by decide),
    if_neg (by simp; intro _ h; exact absurd h (by decide)), if_neg (by decide),
    if_neg (by decide), if_neg (by simp; intro h; exact absurd h (by decide)),
    if_neg (by decide)]
  unfold lexOperator
  rw [takeWhile_nil_of_nul _ (by decide) src st.i h]
  rfl

theorem lexBranch_newline (src : List Char) (fp : String) (kws : List (List Char))
    (lexeme : Nat) (st : LexState) (h : charAt src st.i = '\n') :
    lexBranch src fp kws lexeme st =
      .next { st with i := st.i + 1, row := st.row + 1, col := 0 } := by
  unfold lexBranch
  rw [h]
  rw [if_neg (by decide), if_neg (by decide), if_pos (by decide)]

/-- The pragma rule at a cursor where `#--` starts: the text `t` up to the
newline or the end of the text becomes an `Info` token, leading spaces
dropped, and the cursor stops right after `t`. -/
theorem lexPragma_info (src pre t rest : List Char) (fp : String)
    (row col : Nat) (toks : List Token)
    (hsrc : src = pre ++ ('#' :: '-' :: '-' :: (t ++ rest)))
    (hsize : src.length < 2 ^ 64) (hnl : '\n' ∉ t) (hnul : NUL ∉ t)
    (hrest : rest = [] ∨ charAt rest 0 = '\n') :
    lexPragma src fp ⟨pre.length, row, col, toks⟩ =
      ⟨pre.length + 3 + t.length, row, col + t.length,
        toks ++ [⟨t.dropWhile (· == ' '), .Info, row, col + t.length, fp⟩]⟩ := by
  have h0 : charAt src pre.length = '#' := by
    have := charAt_append_right pre ('#' :: '-' :: '-' :: (t ++ rest)) 0
    rw [Nat.add_zero, ← hsrc] at this
    rw [this, charAt_cons_zero]
  have h1 : charAt src (pre.length + 1) = '-' := by
    rw [hsrc, charAt_append_right, charAt_cons_succ, charAt_cons_zero]
  have h2 : charAt src (pre.length + 2) = '-' := by
    rw [hsrc, charAt_append_right, charAt_cons_succ, charAt_cons_succ, charAt_cons_zero]
  have hg : decide (pre.length < sizeMinus2 src) = true :=
    guard_of_lt src pre.length hsize (by rw [hsrc]; simp)
  have hdrop : src.drop (pre.length + 3) = t ++ rest := by
    rw [hsrc, drop_append_right]; rfl
  have hrun : (t ++ rest).takeWhile (fun c => c != NUL && c != '\n') = t := by
    refine takeWhile_stop _ t rest ?_ ?_
    · intro c hc
      have a1 : c ≠ NUL := fun h => hnul (h ▸ hc)
      have a2 : c ≠ '\n' := fun h => hnl (h ▸ hc)
      simp [a1, a2]
    · rcases hrest with h | h
      · exact Or.inr h
      · left; rw [h]; decide
  unfold lexPragma
  simp only [hg, h0, h1, h2, beq_self_eq_true, Bool.and_self, if_true, hdrop, hrun]

/-- Three backticks at the cursor lead to the script rule. -/
theorem lexStep_backticks (src pre s : List Char) (fp : String) (kws : List (List Char))
    (row col : Nat) (toks : List Token)
    (hsrc : src = pre ++ ('`' :: '`' :: '`' :: s)) (hsize : src.length < 2 ^ 64) :
    lexStep src fp kws ⟨pre.length, row, col, toks⟩ =
      lexBash src fp ⟨pre.length, row, col, toks⟩ := by
  have h0 : charAt src pre.length = '`' := by
    have := charAt_append_right pre ('`' :: '`' :: '`' :: s) 0
    rw [Nat.add_zero, ← hsrc] at this
    rw [this, charAt_cons_zero]
  have h1 : charAt src (pre.length + 1) = '`' := by
    rw [hsrc, charAt_append_right, charAt_cons_succ, charAt_cons_zero]
  have h2 : charAt src (pre.length + 2) = '`' := by
    rw [hsrc, charAt_append_right, charAt_cons_succ, charAt_cons_succ, charAt_cons_zero]
  have hg : decide (pre.length < sizeMinus2 src) = true :=
    guard_of_lt src pre.length hsize (by rw [hsrc]; simp)
  unfold lexStep
  rw [lexPragma_of_ne _ _ _ (by simp only [h0]; decide)]
  unfold lexBranch
  simp only [h0, h1, h2, hg]
  rw [if_neg (by decide), if_neg (by decide), if_neg (by decide), if_neg (by decide),
    if_pos (by decide)]

theorem cstr_cons (c : Char) (s : List Char) :
    cstr (c :: s) = if c = NUL then [] else c :: cstr s := by
  unfold cstr
  rw [List.takeWhile_cons]
  by_cases h : c = NUL <;> simp [h]

theorem cstr_initial (s : List Char) : cstr s <+: s := List.takeWhile_prefix _

/-- Two backticks start the C string at `s` exactly when the first two
characters of `s` are backticks. -/
theorem two_backticks_initial (s : List Char) :
    ['`', '`'] <+: cstr s ↔ s.getD 0 NUL = '`' ∧ s.getD 1 NUL = '`' := by
  have hb : ('`' : Char) ≠ NUL := by decide
  have hn : (NUL : Char) ≠ '`' := by decide
  cases s with
  | nil => simp [cstr, hn]
  | cons d s =>
    rw [cstr_cons]
    by_cases hd : d = NUL
    · subst hd
      simp [hn]
    · rw [if_neg hd, List.cons_prefix_cons]
      cases s with
      | nil =>
        simp only [cstr, List.takeWhile_nil, List.getD_cons_zero, List.getD_cons_succ,
          List.getD_nil]
        constructor
        · rintro ⟨-, h⟩
          exact absurd h.length_le (by simp)
        · rintro ⟨-, h⟩
          exact absurd h hn
      | cons d2 s =>
        rw [cstr_cons]
        simp only [List.getD_cons_zero, List.getD_cons_succ]
        by_cases hd2 : d2 = NUL
        · subst hd2
          rw [if_pos rfl]
          constructor
          · rintro ⟨-, h⟩
            exact absurd h.length_le (by simp)
          · rintro ⟨-, h⟩
            exact absurd h hn
        · rw [if_neg hd2, List.cons_prefix_cons]
          constructor
          · rintro ⟨h1, h2, -⟩
            exact ⟨h1.symm, h2.symm⟩
          · rintro ⟨h1, h2⟩
            exact ⟨h1.symm, h2.symm, List.nil_prefix⟩

/-- The scan of `consume_multiline_bash` finds nothing exactly when the C
string at `s` holds no run of three backticks. -/
theorem consume_multiline_bash_none (s : List Char) :
    ∀ cols rows, (consume_multiline_bash s cols rows).1 = none ↔
      ¬ "```".toList <:+: cstr s := by
  have e : "```".toList = ['`', '`', '`'] := rfl
  rw [e]
  induction s with
  | nil =>
    intro cols rows
    simp [consume_multiline_bash, cstr]
  | cons c s ih =>
    intro cols rows
    rw [cstr_cons]
    by_cases hc : c = NUL
    · subst hc
      rw [if_pos rfl]
      simp [consume_multiline_bash]
    · have hc' : (c == NUL) = false := by simpa using hc
      rw [if_neg hc, List.infix_cons_iff, List.cons_prefix_cons, two_backticks_initial]
      simp only [consume_multiline_bash, hc', Bool.false_eq_true, if_false]
      by_cases ht : c = '`' ∧ s.getD 0 NUL = '`' ∧ s.getD 1 NUL = '`'
      · obtain ⟨h1, h2, h3⟩ := ht
        have hcond : (c != NUL && s.getD 0 NUL != NUL && s.getD 1 NUL != NUL && c == '`'
            && s.getD 0 NUL == '`' && s.getD 1 NUL == '`') = true := by
          rw [h1, h2, h3]; decide
        rw [hcond, if_pos rfl]
        constructor
        · intro h; cases h
        · intro h; exact absurd (Or.inl ⟨h1.symm, h2, h3⟩) h
      · have hcond : (c != NUL && s.getD 0 NUL != NUL && s.getD 1 NUL != NUL && c == '`'
            && s.getD 0 NUL == '`' && s.getD 1 NUL == '`') = false := by
          rw [Bool.eq_false_iff]
          intro h
          simp only [Bool.and_eq_true, beq_iff_eq] at h
          exact ht ⟨h.1.1.2, h.1.2, h.2⟩
        rw [hcond, if_neg (by decide)]
        have hnp : ¬ ('`' = c ∧ s.getD 0 NUL = '`' ∧ s.getD 1 NUL = '`') :=
          fun h => ht ⟨h.1.symm, h.2⟩
        simp only [Option.map_eq_none', hnp, false_or]
        split
        · exact ih _ _
        · exact ih _ _

/-- The scan of `consume_multiline_bash` over an interior `t` without
backtick and without `NUL`, closed by three backticks: it stops at the
closing run, having counted the newlines of `t`. -/
theorem consume_multiline_bash_found (rest : List Char) :
    ∀ (t : List Char) (cols rows : Nat), '`' ∉ t → NUL ∉ t →
      consume_multiline_bash (t ++ '`' :: '`' :: '`' :: rest) cols rows =
        (some t.length, colAfter cols t, rows + newlines t) := by
  intro t
  induction t with
  | nil =>
    intro cols rows _ _
    have hb : (('`' : Char) == NUL) = false := by decide
    have hb' : (('`' : Char) != NUL) = true := by decide
    simp [consume_multiline_bash, hb, hb', colAfter, newlines]
  | cons c t ih =>
    intro cols rows hbt hnul
    have hc : (c == NUL) = false := by
      have : c ≠ NUL := fun h => hnul (by rw [h]; exact List.mem_cons_self _ _)
      simpa using this
    have hcb : (c == '`') = false := by
      have : c ≠ '`' := fun h => hbt (by rw [h]; exact List.mem_cons_self _ _)
      simpa using this
    have hbt' : '`' ∉ t := fun h => hbt (List.mem_cons_of_mem _ h)
    have hnul' : NUL ∉ t := fun h => hnul (List.mem_cons_of_mem _ h)
    simp only [List.cons_append, consume_multiline_bash, hc, hcb, Bool.false_eq_true,
      if_false, Bool.and_false, Bool.false_and, List.append_eq]
    by_cases hn : c = '\n'
    · subst hn
      simp only [beq_self_eq_true, if_true]
      rw [ih 0 (rows + 1) hbt' hnul']
      simp [colAfter, newlines, List.count_cons]
      omega
    · have hn' : (c == '\n') = false := by simpa using hn
      simp only [hn', Bool.false_eq_true, if_false]
      rw [ih (cols + 1) rows hbt' hnul']
      have : ('\n' == c) = false := by
        simpa using fun h : '\n' = c => hn h.symm
      simp [colAfter, newlines, List.count_cons, hn, this]

theorem lexBash_throw (src : List Char) (fp : String) (st : LexState)
    (h : (consume_multiline_bash (src.drop (st.i + 3)) st.col st.row).1 = none) :
    lexBash src fp st = .throw "could not find the end of the multiline bash script" := by
  unfold lexBash
  generalize consume_multiline_bash (src.drop (st.i + 3)) st.col st.row = res at h ⊢
  obtain ⟨r, c, w⟩ := res
  simp only at h
  subst h
  rfl

theorem lexLoop_throw (src : List Char) (fp : String) (kws : List (List Char))
    (fuel : Nat) (st : LexState) (msg : String) (h : st.i < src.length)
    (hs : lexStep src fp kws st = .throw msg) :
    lexLoop src fp kws (fuel + 1) st = .error msg := by
  simp only [lexLoop, h, if_true, hs]

theorem lex_file_error (src : List Char) (fp : String) (kws : List (List Char))
    (fuel : Nat) (msg : String)
    (h : lexLoop src fp kws fuel ⟨0, 1, 0, []⟩ = .error msg) :
    lex_file fuel src fp kws = .error msg := by
  unfold lex_file
  rw [h]

/-! ## The claims on pragmas and script blocks -/

/-- Claim C13: for every text `t` that holds no run of three backticks,
`lex_file` on three backticks followed by `t` throws the error "could not find
the end of the multiline bash script" and returns no stream (the text fits a
`size_t`, the fuel allows one iteration); and `consume_multiline_bash` returns
`-1` exactly when the C string it is given holds no run of three backticks. -/
theorem unterminated_block (t : List Char) (fp : String) (kws : List (List Char))
    (ht : ¬ "```".toList <:+: t) (hsize : 3 + t.length < 2 ^ 64)
    (fuel : Nat) (hfuel : 1 ≤ fuel) :
    lex_file fuel ('`' :: '`' :: '`' :: t) fp kws =
        .error "could not find the end of the multiline bash script" ∧
      ∀ s cols rows, (consume_multiline_bash s cols rows).1 = none ↔
        ¬ "```".toList <:+: cstr s := by
  refine ⟨?_, fun s => consume_multiline_bash_none s⟩
  have hlen : ('`' :: '`' :: '`' :: t).length < 2 ^ 64 := by
    simp only [List.length_cons]; omega
  have s1 := lexStep_backticks ('`' :: '`' :: '`' :: t) [] t fp kws 1 0 [] rfl hlen
  have hnone : (consume_multiline_bash t 0 1).1 = none :=
    (consume_multiline_bash_none t 0 1).mpr
      (fun h => ht (h.trans (cstr_initial t).isInfix))
  have hb := lexBash_throw ('`' :: '`' :: '`' :: t) fp ⟨0, 1, 0, []⟩
    (by
      simp only [Nat.zero_add, List.drop_succ_cons, List.drop_zero]
      exact hnone)
  obtain ⟨f, rfl⟩ : ∃ f, fuel = f + 1 := ⟨fuel - 1, by omega⟩
  have hstep : lexStep ('`' :: '`' :: '`' :: t) fp kws ⟨0, 1, 0, []⟩ =
      .throw "could not find the end of the multiline bash script" := s1.trans hb
  have hl := lexLoop_throw ('`' :: '`' :: '`' :: t) fp kws f ⟨0, 1, 0, []⟩ _
    (Nat.succ_pos _) hstep
  exact lex_file_error _ _ _ _ _ hl

/-- Witness of `unterminated_block`: the text of three backticks and `ab`. -/
theorem unterminated_block_witness :
    lex_file 1 ('`' :: '`' :: '`' :: "ab".toList) "f" [] =
        .error "could not find the end of the multiline bash script" ∧
      ∀ s cols rows, (consume_multiline_bash s cols rows).1 = none ↔
        ¬ "```".toList <:+: cstr s :=
  unterminated_block "ab".toList "f" [] (by decide) (by norm_num) 1 (le_refl _)

/-- The script rule on an interior `t` without backtick and `NUL`, closed by
three backticks. -/
theorem lexBash_found (src pre t rest : List Char) (fp : String)
    (row col : Nat) (toks : List Token)
    (hsrc : src = pre ++ ('`' :: '`' :: '`' :: (t ++ '`' :: '`' :: '`' :: rest)))
    (hbt : '`' ∉ t) (hnul : NUL ∉ t) :
    lexBash src fp ⟨pre.length, row, col, toks⟩ =
      .next ⟨pre.length + (6 + t.length), row + newlines t, colAfter col t,
        toks ++ [⟨t, .Multiline_Bash, row + newlines t, colAfter col t, fp⟩]⟩ := by
  have hdrop : src.drop (pre.length + 3) = t ++ '`' :: '`' :: '`' :: rest := by
    rw [hsrc, drop_append_right]; rfl
  unfold lexBash
  simp only [hdrop, consume_multiline_bash_found rest t col row hbt hnul, token_alloc,
    List.take_left']

theorem lex_file_done (src : List Char) (fp : String) (kws : List (List Char))
    (fuel : Nat) (st : LexState)
    (h : lexLoop src fp kws fuel ⟨0, 1, 0, []⟩ = .done st) :
    lex_file fuel src fp kws = .done (st.toks ++ [⟨[], .Eof, st.row, st.col, fp⟩]) := by
  unfold lex_file
  rw [h]
  rfl

/-- Claim C19: for every text `t` without backtick and without `NUL`,
`lex_file` on three backticks, `t`, three backticks returns the one
`Multiline_Bash` token whose lexeme is `t` as written, followed by `Eof`; both
carry the row and column reached at the end of the block (the text fits a
`size_t`, the fuel allows one iteration). -/
theorem script_block_capture (t : List Char) (fp : String) (kws : List (List Char))
    (hbt : '`' ∉ t) (hnul : NUL ∉ t) (hsize : 6 + t.length < 2 ^ 64)
    (fuel : Nat) (hfuel : 1 ≤ fuel) :
    lex_file fuel ('`' :: '`' :: '`' :: (t ++ ['`', '`', '`'])) fp kws =
      .done [⟨t, .Multiline_Bash, 1 + newlines t, colAfter 0 t, fp⟩,
        ⟨[], .Eof, 1 + newlines t, colAfter 0 t, fp⟩] := by
  have hlen : ('`' :: '`' :: '`' :: (t ++ ['`', '`', '`'])).length < 2 ^ 64 := by
    simp only [List.length_cons, List.length_append, List.length_nil]; omega
  have s1 := lexStep_backticks ('`' :: '`' :: '`' :: (t ++ ['`', '`', '`'])) []
    (t ++ ['`', '`', '`']) fp kws 1 0 [] rfl hlen
  have s2 := lexBash_found ('`' :: '`' :: '`' :: (t ++ ['`', '`', '`'])) [] t [] fp 1 0 []
    rfl hbt hnul
  have s3 := s1.trans s2
  simp only [List.length_nil, Nat.zero_add, List.nil_append] at s3
  obtain ⟨f, rfl⟩ : ∃ f, fuel = f + 1 := ⟨fuel - 1, by omega⟩
  have hl : lexLoop ('`' :: '`' :: '`' :: (t ++ ['`', '`', '`'])) fp kws (f + 1) ⟨0, 1, 0, []⟩ =
      .done ⟨6 + t.length, 1 + newlines t, colAfter 0 t,
        [⟨t, .Multiline_Bash, 1 + newlines t, colAfter 0 t, fp⟩]⟩ := by
    have hpos : 0 < ('`' :: '`' :: '`' :: (t ++ ['`', '`', '`'])).length := Nat.succ_pos _
    rw [lexLoop_step _ _ _ f 0 _ _ _ _ hpos s3]
    refine lexLoop_done _ _ _ _ _ ?_
    simp only [List.length_cons, List.length_append, List.length_nil]
    omega
  exact lex_file_done _ _ _ _ _ hl

/-- Witness of `script_block_capture`: the interior `a\"b`, newline, `c`,
whose backslash and quote are kept as written. -/
theorem script_block_capture_witness :
    lex_file 1 ('`' :: '`' :: '`' :: (['a', '\\', '"', 'b', '\n', 'c'] ++ ['`', '`', '`']))
        "f" [] =
      .done [⟨['a', '\\', '"', 'b', '\n', 'c'], .Multiline_Bash,
          1 + newlines ['a', '\\', '"', 'b', '\n', 'c'],
          colAfter 0 ['a', '\\', '"', 'b', '\n', 'c'], "f"⟩,
        ⟨[], .Eof, 1 + newlines ['a', '\\', '"', 'b', '\n', 'c'],
          colAfter 0 ['a', '\\', '"', 'b', '\n', 'c'], "f"⟩] :=
  script_block_capture ['a', '\\', '"', 'b', '\n', 'c'] "f" [] (by decide) (by decide)
    (by norm_num) 1 (le_refl _)

/-- Claim C18: for every text `t` without newline and without `NUL`,
`lex_file` on `#--` followed by `t`, and on the same text closed by a newline,
returns the one `Info` token whose lexeme is `t` without its leading spaces,
followed by `Eof` (the text fits a `size_t`, the fuel allows one iteration);
and at any cursor where `#--` begins such a line, the pragma rule, which runs
before the comment rule, appends that token and leaves the cursor at the end
of the line. -/
theorem pragma_info (t : List Char) (fp : String) (kws : List (List Char))
    (hnl : '\n' ∉ t) (hnul : NUL ∉ t) (hsize : 4 + t.length < 2 ^ 64)
    (fuel : Nat) (hfuel : 1 ≤ fuel) :
    lex_file fuel ('#' :: '-' :: '-' :: t) fp kws =
        .done [⟨t.dropWhile (· == ' '), .Info, 1, t.length, fp⟩,
          ⟨[], .Eof, 1, t.length, fp⟩] ∧
      lex_file fuel ('#' :: '-' :: '-' :: (t ++ ['\n'])) fp kws =
        .done [⟨t.dropWhile (· == ' '), .Info, 1, t.length, fp⟩,
          ⟨[], .Eof, 2, 0, fp⟩] ∧
      ∀ (src pre rest : List Char) (row col : Nat) (toks : List Token),
        src = pre ++ ('#' :: '-' :: '-' :: (t ++ rest)) → src.length < 2 ^ 64 →
        (rest = [] ∨ charAt rest 0 = '\n') →
        lexPragma src fp ⟨pre.length, row, col, toks⟩ =
          ⟨pre.length + 3 + t.length, row, col + t.length,
            toks ++ [⟨t.dropWhile (· == ' '), .Info, row, col + t.length, fp⟩]⟩ := by
  obtain ⟨f, rfl⟩ : ∃ f, fuel = f + 1 := ⟨fuel - 1, by omega⟩
  refine ⟨?_, ?_, ?_⟩
  · have hlen : ('#' :: '-' :: '-' :: t).length < 2 ^ 64 := by
      simp only [List.length_cons]; omega
    have p := lexPragma_info ('#' :: '-' :: '-' :: t) [] t [] fp 1 0 []
      (by simp) hlen hnl hnul (Or.inl rfl)
    simp only [List.length_nil, Nat.zero_add] at p
    have hc : charAt ('#' :: '-' :: '-' :: t) (3 + t.length) = NUL := by
      unfold charAt
      rw [List.getD_eq_default]
      simp only [List.length_cons]; omega
    have s : lexStep ('#' :: '-' :: '-' :: t) fp kws ⟨0, 1, 0, []⟩ =
        .next ⟨3 + t.length, 1, t.length,
          [⟨t.dropWhile (· == ' '), .Info, 1, t.length, fp⟩]⟩ := by
      unfold lexStep
      rw [p]
      exact lexBranch_nul _ _ _ _ _ hc
    have hpos : 0 < ('#' :: '-' :: '-' :: t).length := Nat.succ_pos _
    have hl : lexLoop ('#' :: '-' :: '-' :: t) fp kws (f + 1) ⟨0, 1, 0, []⟩ =
        .done ⟨3 + t.length, 1, t.length,
          [⟨t.dropWhile (· == ' '), .Info, 1, t.length, fp⟩]⟩ := by
      rw [lexLoop_step _ _ _ f 0 _ _ _ _ hpos s]
      refine lexLoop_done _ _ _ _ _ ?_
      simp only [List.length_cons]; omega
    exact lex_file_done _ _ _ _ _ hl
  · have hlen : ('#' :: '-' :: '-' :: (t ++ ['\n'])).length < 2 ^ 64 := by
      simp only [List.length_cons, List.length_append, List.length_nil]; omega
    have p := lexPragma_info ('#' :: '-' :: '-' :: (t ++ ['\n'])) [] t ['\n'] fp 1 0 []
      (by simp) hlen hnl hnul (Or.inr (by rw [charAt_cons_zero]))
    simp only [List.length_nil, Nat.zero_add] at p
    have hc : charAt ('#' :: '-' :: '-' :: (t ++ ['\n'])) (3 + t.length) = '\n' := by
      have e1 : '#' :: '-' :: '-' :: (t ++ ['\n']) = ('#' :: '-' :: '-' :: t) ++ ['\n'] := rfl
      have e2 : 3 + t.length = ('#' :: '-' :: '-' :: t).length + 0 := by
        simp only [List.length_cons]; omega
      rw [e1, e2, charAt_append_right, charAt_cons_zero]
    have s : lexStep ('#' :: '-' :: '-' :: (t ++ ['\n'])) fp kws ⟨0, 1, 0, []⟩ =
        .next ⟨3 + t.length + 1, 1 + 1, 0,
          [⟨t.dropWhile (· == ' '), .Info, 1, t.length, fp⟩]⟩ := by
      unfold lexStep
      rw [p]
      exact lexBranch_newline _ _ _ _ _ hc
    have hpos : 0 < ('#' :: '-' :: '-' :: (t ++ ['\n'])).length := Nat.succ_pos _
    have hl : lexLoop ('#' :: '-' :: '-' :: (t ++ ['\n'])) fp kws (f + 1) ⟨0, 1, 0, []⟩ =
        .done ⟨3 + t.length + 1, 1 + 1, 0,
          [⟨t.dropWhile (· == ' '), .Info, 1, t.length, fp⟩]⟩ := by
      rw [lexLoop_step _ _ _ f 0 _ _ _ _ hpos s]
      refine lexLoop_done _ _ _ _ _ ?_
      simp only [List.length_cons, List.length_append, List.length_nil]; omega
    exact lex_file_done _ _ _ _ _ hl
  · intro src pre rest row col toks hsrc hlen hrest
    exact lexPragma_info src pre t rest fp row col toks hsrc hlen hnl hnul hrest

/-- Witness of `pragma_info`: the pragma text of two spaces and `hi there`. -/
theorem pragma_info_witness :
    lex_file 1 ('#' :: '-' :: '-' :: "  hi there".toList) "f" [] =
        .done [⟨"  hi there".toList.dropWhile (· == ' '), .Info, 1,
            "  hi there".toList.length, "f"⟩,
          ⟨[], .Eof, 1, "  hi there".toList.length, "f"⟩] ∧
      lex_file 1 ('#' :: '-' :: '-' :: ("  hi there".toList ++ ['\n'])) "f" [] =
        .done [⟨"  hi there".toList.dropWhile (· == ' '), .Info, 1,
            "  hi there".toList.length, "f"⟩,
          ⟨[], .Eof, 2, 0, "f"⟩] ∧
      "  hi there".toList.dropWhile (· == ' ') = "hi there".toList :=
  have h := pragma_info "  hi there".toList "f" [] (by decide) (by decide) (by norm_num) 1
    (le_refl _)
  ⟨h.1, h.2.1, by decide⟩

/-! ## The source resolver -/

/-- A name of at most 255 characters is formatted whole into the buffer. -/
theorem snprintf256_of_le (name : List Char) (h : name.length ≤ 255) :
    snprintf256 name = name := List.take_of_length_le h

/-- A string without a terminator inside is its own C string. -/
theorem cstr_of_no_nul (s : List Char) (h : NUL ∉ s) : cstr s = s := by
  unfold cstr
  rw [List.takeWhile_eq_self_iff]
  intro c hc
  have : c ≠ NUL := fun e => h (e ▸ hc)
  simpa using this

/-- The loop over the include directories returns the first file found, and
the lookup over the candidates goes on with the later ones when it finds none. -/
theorem searchDirs_spec (fs : List Char → Option File) (path : List Char)
    (later : List (Option (List Char))) :
    ∀ dirs : List (List Char), (∀ d ∈ dirs, NUL ∉ d) →
      (∀ d ∈ dirs, (d ++ '/' :: path).length ≤ 255) →
      (dirs.map (fun dir => (fs (dir ++ '/' :: path)).map File.content) ++ later).findSome? id =
        match searchDirs fs path dirs with
        | some f => some f.content
        | none => later.findSome? id := by
  intro dirs
  induction dirs with
  | nil => intro _ _; rfl
  | cons d dirs ih =>
    intro hnul hfit
    have e1 : cstr d = d := cstr_of_no_nul d (hnul d (List.mem_cons_self _ _))
    have e2 : snprintf256 (d ++ '/' :: path) = d ++ '/' :: path :=
      snprintf256_of_le _ (hfit d (List.mem_cons_self _ _))
    simp only [List.map_cons, List.cons_append, List.findSome?_cons, searchDirs, e1, e2]
    cases hf : fs (d ++ '/' :: path) with
    | some f => rfl
    | none =>
      simp only [Option.map_none', id_eq]
      exact ih (fun x hx => hnul x (List.mem_cons_of_mem _ hx))
        (fun x hx => hfit x (List.mem_cons_of_mem _ hx))

/-- The last steps of `read_file`, from the file `r` that the first lookups
gave: the include directories, the literal path, and the reading of the file
found, against the first candidate that exists. -/
theorem read_file_tail (fs : List Char → Option File) (path msg : List Char)
    (dirs : List (List Char))
    (hdirs : ∀ d ∈ dirs, NUL ∉ d)
    (hfit : ∀ d ∈ dirs, (d ++ '/' :: path).length ≤ 255)
    (hok : ∀ p f, fs p = some f →
      f.fseekFails = false ∧ f.ftellFails = false ∧ f.freadFails = false)
    (r : Option File) (hr : r = none ∨ ∃ p, fs p = r) :
    (match (match (match r with
            | some f => some f
            | none => searchDirs fs path dirs) with
          | some f => some f
          | none => fs path) with
      | none => ReadResult.throw msg
      | some f =>
        if f.fseekFails then .throw msg
        else if f.ftellFails then .null
        else if f.freadFails then .null
        else .text f.content) =
    match (r.map File.content :: (dirs.map (fun dir => (fs (dir ++ '/' :: path)).map File.content)
            ++ [(fs path).map File.content])).findSome? id with
      | some text => .text text
      | none => .throw msg := by
  have hsd := searchDirs_spec fs path [(fs path).map File.content] dirs hdirs hfit
  have hfound : ∀ f, searchDirs fs path dirs = some f → ∃ p, fs p = some f := by
    intro f
    generalize dirs = ds
    induction ds with
    | nil => intro h; simp [searchDirs] at h
    | cons d ds ih =>
      intro h
      simp only [searchDirs] at h
      cases hf : fs (snprintf256 (cstr d ++ '/' :: path)) with
      | some g => rw [hf] at h; cases h; exact ⟨_, hf⟩
      | none => rw [hf] at h; exact ih h
  cases r with
  | some f =>
    rcases hr with hr | ⟨p, hp⟩
    · cases hr
    · obtain ⟨a, b, c⟩ := hok p f hp
      simp [a, b, c]
  | none =>
    simp only [Option.map_none', List.findSome?_cons, id_eq]
    rw [hsd]
    cases hs : searchDirs fs path dirs with
    | some f =>
      obtain ⟨p, hp⟩ := hfound f hs
      obtain ⟨a, b, c⟩ := hok p f hp
      simp [a, b, c]
    | none =>
      cases hp : fs path with
      | some f =>
        obtain ⟨a, b, c⟩ := hok _ f hp
        simp [a, b, c]
      | none => simp

/-- For names that fit the 256-byte buffer, `read_file` returns the text of
the first candidate that exists in the documented order, and throws the
not-found error with the requested path when there is none. -/
theorem read_file_resolution (PREFIX : List Char) (baked : List Char → Option (List Char))
    (without : Bool) (fs : List Char → Option File) (path : List Char)
    (dirs : List (List Char))
    (hpath : NUL ∉ path) (hdirs : ∀ d ∈ dirs, NUL ∉ d)
    (hfit0 : without = false → (PREFIX ++ "/include/EARL/".toList ++ path).length ≤ 255)
    (hfit : ∀ d ∈ dirs, (d ++ '/' :: path).length ≤ 255)
    (hok : ∀ p f, fs p = some f →
      f.fseekFails = false ∧ f.ftellFails = false ∧ f.freadFails = false) :
    read_file PREFIX baked without fs path dirs =
      match resolve PREFIX baked without (fun p => (fs p).map File.content) path dirs with
      | some text => .text text
      | none => .throw ("could not find the specified source filepath: ".toList ++ path) := by
  have hkey : sanatize_stdlib_bake_fp path = flatKey path := sanatize_eq_flatKey path hpath
  revert hfit0
  unfold read_file resolve
  generalize "could not find the specified source filepath: ".toList ++ path = msg
  generalize "/include/EARL/".toList = inc
  intro hfit0
  cases without with
  | true =>
    have := read_file_tail fs path msg dirs hdirs hfit hok none (Or.inl rfl)
    simpa using this
  | false =>
    have e0 := snprintf256_of_le _ (hfit0 rfl)
    simp only [Bool.false_eq_true, if_false, hkey, e0, List.cons_append, List.nil_append,
      List.findSome?_cons, id_eq]
    cases hb : baked (flatKey path) with
    | some t => rfl
    | none =>
      exact read_file_tail fs path msg dirs hdirs hfit hok (fs (PREFIX ++ inc ++ path))
        (Or.inr ⟨_, rfl⟩)

set_option maxRecDepth 100000 in
/-- Claim C15, the failing input: a candidate name longer than the 256-byte
buffer is cut short.  With
`WITHOUT_STDLIB` set, the include directory `lib` and a requested path of 252
letters, `read_file` opens `lib/` followed by 251 letters and returns that
file's text, although no candidate of the documented order exists (the lookup
of the specification finds nothing, so a not-found error is due). -/
theorem read_file_truncates :
    read_file "/usr".toList (fun _ => none) true
        (fun p => if p = "lib/".toList ++ List.replicate 251 'a'
          then some ⟨"x".toList, false, false, false⟩ else none)
        (List.replicate 252 'a') ["lib".toList] = .text "x".toList ∧
      resolve "/usr".toList (fun _ => none) true
        (fun p => (if p = "lib/".toList ++ List.replicate 251 'a'
          then some (⟨"x".toList, false, false, false⟩ : File) else none).map File.content)
        (List.replicate 252 'a') ["lib".toList] = none := by
  constructor
  · decide
  · decide

/-! ## Progress on plain texts -/

/-- A plain character starts none of the rules that can fail or read on. -/
theorem plain_ne (c : Char) (h : isPlainChar c = true) :
    c ≠ '#' ∧ c ≠ '`' ∧ c ≠ '"' ∧ c ≠ '\'' ∧ c ≠ NUL := by
  refine ⟨?_, ?_, ?_, ?_, ?_⟩ <;> (intro e; subst e; revert h; decide)

/-- A plain character that no earlier rule takes is a key of the table. -/
theorem plain_key (c : Char) (h : isPlainChar c = true) (h1 : isalnum c = false)
    (h2 : c ≠ '_') (h3 : c ≠ ' ') (h4 : c ≠ '\t') (h5 : c ≠ '\n') :
    (htFind [c]).isSome = true := by
  unfold isPlainChar at h
  simp [h1, h2, h3, h4, h5] at h
  exact h.1.1

/-- The character at a cursor inside the text is one of its characters. -/
theorem charAt_mem (src : List Char) (i : Nat) (h : i < src.length) : charAt src i ∈ src := by
  unfold charAt
  rw [List.getD_eq_getElem _ _ h]
  exact List.getElem_mem h

/-- The text at a cursor inside it starts with the character at the cursor. -/
theorem drop_eq_charAt_cons (src : List Char) (i : Nat) (h : i < src.length) :
    src.drop i = charAt src i :: src.drop (i + 1) := by
  unfold charAt
  rw [List.getD_eq_getElem _ _ h]
  exact List.drop_eq_getElem_cons h

/-- A run read at the cursor is no longer than what is left of the text. -/
theorem takeWhile_drop_le (src : List Char) (i : Nat) (p : Char → Bool) :
    ((src.drop i).takeWhile p).length ≤ src.length - i := by
  have h1 : ((src.drop i).takeWhile p).length ≤ (src.drop i).length :=
    (List.takeWhile_prefix p).length_le
  rw [List.length_drop] at h1
  exact h1

/-- A run read at a cursor whose character belongs to it is not empty. -/
theorem takeWhile_drop_pos (src : List Char) (i : Nat) (p : Char → Bool)
    (h : i < src.length) (hp : p (charAt src i) = true) :
    1 ≤ ((src.drop i).takeWhile p).length := by
  rw [drop_eq_charAt_cons src i h, List.takeWhile_cons, if_pos hp]
  simp

/-- A position whose character is not the terminator is inside the text. -/
theorem charAt_ne_nul_lt (src : List Char) (i : Nat)
    (h : charAt src i ≠ NUL) : i < src.length := by
  by_contra hlt
  apply h
  unfold charAt
  rw [List.getD_eq_default _ _ (Nat.le_of_not_lt hlt)]

/-- The shrink-and-rescan loop, started on a buffer whose first character is a
key of the table, leaves the cursor after at least one character of the buffer
and inside the text. -/
theorem shrinkLoop_progress (src : List Char) (fp : String) (base : Nat) :
    ∀ (n : Nat) (buf : List Char) (st : LexState), buf.length ≤ n → buf ≠ [] →
      (htFind (buf.take 1)).isSome = true → st.i = base + buf.length →
      st.i ≤ src.length →
      base + 1 ≤ (shrinkLoop src fp n buf st).i ∧
        (shrinkLoop src fp n buf st).i ≤ src.length := by
  intro n
  induction n with
  | zero =>
    intro buf st hn hne _ _ _
    exact absurd (List.length_eq_zero.mp (Nat.le_zero.mp hn)) hne
  | succ n ih =>
    intro buf st hn hne hkey hi hle
    have hlen : 1 ≤ buf.length := List.length_pos.mpr hne
    have hemp : buf.isEmpty = false := by
      cases buf with
      | nil => exact absurd rfl hne
      | cons _ _ => rfl
    unfold shrinkLoop
    rw [hemp]
    simp only [Bool.false_eq_true, if_false]
    cases hf : htFind buf with
    | some type =>
      simp only []
      split
      · have hb := takeWhile_drop_le src st.i isdigit
        simp only []
        constructor
        · omega
        · omega
      · simp only []
        constructor
        · omega
        · omega
    | none =>
      simp only []
      have h2 : 2 ≤ buf.length := by
        by_contra hlt
        have h1 : buf.length = 1 := by omega
        rw [List.take_of_length_le (by omega), hf] at hkey
        exact absurd hkey (by decide)
      have hdl : buf.dropLast.length = buf.length - 1 := List.length_dropLast buf
      have hdne : buf.dropLast ≠ [] := by
        intro e
        rw [e] at hdl
        simp at hdl
        omega
      have hdk : buf.dropLast.take 1 = buf.take 1 := by
        rw [List.dropLast_eq_take, List.take_take]
        congr 1
        omega
      apply ih buf.dropLast { st with i := st.i - 1 }
      · omega
      · exact hdne
      · rw [hdk]; exact hkey
      · show st.i - 1 = base + buf.dropLast.length
        omega
      · show st.i - 1 ≤ src.length
        omega

/-- One iteration on a plain text: from a cursor inside the text the loop body
ends normally, with the cursor at least one character further and at most at
the end of the text. -/
theorem lexStep_progress (src : List Char) (fp : String) (kws : List (List Char))
    (hplain : ∀ c ∈ src, isPlainChar c = true) (st : LexState) (h : st.i < src.length) :
    ∃ st', lexStep src fp kws st = .next st' ∧ st.i + 1 ≤ st'.i ∧ st'.i ≤ src.length := by
  have hc := hplain _ (charAt_mem src st.i h)
  obtain ⟨n1, n2, n3, n4, n5⟩ := plain_ne _ hc
  have hnul : ∀ j, charAt src j ≠ NUL → j < src.length := charAt_ne_nul_lt src
  have hb1 : (charAt src st.i == '#') = false := by simpa using n1
  have hb3 : (charAt src st.i == '"') = false := by simpa using n3
  have hb4 : (decide (st.i < sizeMinus2 src) && charAt src st.i == '`'
      && charAt src (st.i + 1) == '`' && charAt src (st.i + 2) == '`') = false := by
    simp [n2]
  have hb5 : (charAt src st.i == '\'') = false := by simpa using n4
  unfold lexStep
  rw [lexPragma_of_ne src fp st n1]
  unfold lexBranch
  simp only [hb1, hb3, hb4, hb5, Bool.false_eq_true, if_false]
  split
  · exact ⟨_, rfl, Nat.le_refl _, h⟩
  rename_i hws
  split
  · exact ⟨_, rfl, Nat.le_refl _, h⟩
  rename_i hnl
  split
  · rename_i hid
    refine ⟨_, rfl, ?_, ?_⟩
    · show st.i + 1 ≤ st.i + _
      have := takeWhile_drop_pos src st.i (fun d => d == '_' || isalnum d) h (by
        simp only [Bool.or_eq_true, beq_iff_eq] at hid
        rcases hid with hid | hid
        · simp [isalnum, hid]
        · simp [hid])
      omega
    · show st.i + _ ≤ src.length
      have := takeWhile_drop_le src st.i (fun d => d == '_' || isalnum d)
      omega
  rename_i hid
  split
  · rename_i hx
    simp only [Bool.and_eq_true, bne_iff_ne, ne_eq, beq_iff_eq] at hx
    have h1 : st.i + 1 < src.length := hnul _ hx.1.2
    refine ⟨_, rfl, ?_, ?_⟩
    · show st.i + 1 ≤ st.i + 2 + _
      omega
    · show st.i + 2 + _ ≤ src.length
      have := takeWhile_drop_le src (st.i + 2) (fun d =>
        d != NUL && (isdigit d || (decide (65 ≤ d.toNat) && decide (d.toNat ≤ 70))
          || (decide (97 ≤ d.toNat) && decide (d.toNat ≤ 102))))
      omega
  rename_i hx
  split
  · rename_i hd
    have hpos := takeWhile_drop_pos src st.i isdigit h hd
    have hle := takeWhile_drop_le src st.i isdigit
    unfold lexNumber
    simp only []
    split
    · rename_i hfl
      simp only [Bool.and_eq_true, bne_iff_ne, ne_eq, beq_iff_eq] at hfl
      have h1 := hnul _ hfl.1.1.2
      have hle2 := takeWhile_drop_le src
        (st.i + ((src.drop st.i).takeWhile isdigit).length + 1) isdigit
      refine ⟨_, rfl, ?_, ?_⟩
      · show st.i + 1 ≤ st.i + _ + _
        omega
      · show st.i + _ + (".".toList ++ _).length ≤ src.length
        rw [List.length_append]
        show st.i + _ + (1 + _) ≤ src.length
        omega
    · refine ⟨_, rfl, ?_, ?_⟩
      · show st.i + 1 ≤ st.i + _
        omega
      · show st.i + _ ≤ src.length
        omega
  rename_i hd
  simp only [Bool.or_eq_true, beq_iff_eq, not_or] at hid hws
  have hal : isalnum (charAt src st.i) = false := by
    have a : isalpha (charAt src st.i) = false := by simpa using hid.1
    have d : isdigit (charAt src st.i) = false := by simpa using hd
    simp [isalnum, a, d]
  have hnl2 : charAt src st.i ≠ '\n' := by simpa using hnl
  have hkey := plain_key _ hc hal hid.2 hws.2 hws.1 hnl2
  have hp : (fun d => d != NUL && !isalnum d && d != '_') (charAt src st.i) = true := by
    simp [n5, hal, hid.2]
  have hpos := takeWhile_drop_pos src st.i (fun d => d != NUL && !isalnum d && d != '_') h hp
  have hle := takeWhile_drop_le src st.i (fun d => d != NUL && !isalnum d && d != '_')
  have hne : (src.drop st.i).takeWhile (fun d => d != NUL && !isalnum d && d != '_') ≠ [] := by
    intro e
    rw [e] at hpos
    simp at hpos
  have htk : ((src.drop st.i).takeWhile (fun d => d != NUL && !isalnum d && d != '_')).take 1
      = [charAt src st.i] := by
    rw [drop_eq_charAt_cons src st.i h, List.takeWhile_cons, if_pos hp]
    rfl
  have := shrinkLoop_progress src fp st.i _
    ((src.drop st.i).takeWhile (fun d => d != NUL && !isalnum d && d != '_'))
    { st with i := st.i + ((src.drop st.i).takeWhile
        (fun d => d != NUL && !isalnum d && d != '_')).length }
    (Nat.le_refl _) hne (by rw [htk]; exact hkey) rfl (by show st.i + _ ≤ src.length; omega)
  exact ⟨_, rfl, this⟩

/-- On a plain text the main loop ends normally within as many iterations as
there are characters from the cursor to the end of the text. -/
theorem lexLoop_plain (src : List Char) (fp : String) (kws : List (List Char))
    (hplain : ∀ c ∈ src, isPlainChar c = true) :
    ∀ (fuel : Nat) (st : LexState), src.length - st.i ≤ fuel →
      ∃ st', lexLoop src fp kws fuel st = .done st' := by
  intro fuel
  induction fuel with
  | zero =>
    intro st hf
    exact ⟨st, lexLoop_done src fp kws 0 st (by omega)⟩
  | succ fuel ih =>
    intro st hf
    by_cases hi : st.i < src.length
    · obtain ⟨st1, hs, h1, _⟩ := lexStep_progress src fp kws hplain st hi
      obtain ⟨st2, h2⟩ := ih st1 (by omega)
      refine ⟨st2, ?_⟩
      rw [← h2]
      exact lexLoop_step src fp kws fuel st.i st.row st.col st.toks st1 hi hs
    · exact ⟨st, lexLoop_done src fp kws _ st (by omega)⟩

/-- Claim C20: for every text whose characters are all ASCII letters, ASCII
digits, `_`, space, tab, newline or one-character keys of the operator table
other than `#` and the backtick, every iteration of the main loop that starts
inside the text ends normally with the cursor at least one character further
and at most at `src.size()`; so `lex_file` ends within `src.size()` iterations
and returns a stream, the same one for every larger bound, with no error. -/
theorem plain_text_progress (src : List Char) (fp : String) (kws : List (List Char))
    (hplain : ∀ c ∈ src, isPlainChar c = true) :
    (∀ st : LexState, st.i < src.length →
      ∃ st', lexStep src fp kws st = .next st' ∧ st.i + 1 ≤ st'.i ∧ st'.i ≤ src.length) ∧
    ∃ stream, ∀ fuel, src.length ≤ fuel → lex_file fuel src fp kws = .done stream := by
  refine ⟨lexStep_progress src fp kws hplain, ?_⟩
  obtain ⟨st, hst⟩ := lexLoop_plain src fp kws hplain src.length ⟨0, 1, 0, []⟩ (by simp)
  refine ⟨st.toks ++ [⟨[], .Eof, st.row, st.col, fp⟩], ?_⟩
  intro fuel hf
  exact lex_file_mono src fp kws src.length fuel _ hf
    (lex_file_done src fp kws src.length st hst) (by simp)

/-- The text `a = (b + 2.5) * 0x1F` with its newline is plain, so the main
loop advances on it and `lex_file` returns a stream within 21 iterations. -/
theorem plain_text_progress_witness :
    (∀ c ∈ "a = (b + 2.5) * 0x1F\n".toList, isPlainChar c = true) ∧
    ((∀ st : LexState, st.i < "a = (b + 2.5) * 0x1F\n".toList.length →
      ∃ st', lexStep "a = (b + 2.5) * 0x1F\n".toList "main.rl" [] st = .next st' ∧
        st.i + 1 ≤ st'.i ∧ st'.i ≤ "a = (b + 2.5) * 0x1F\n".toList.length) ∧
    ∃ stream, ∀ fuel, "a = (b + 2.5) * 0x1F\n".toList.length ≤ fuel →
      lex_file fuel "a = (b + 2.5) * 0x1F\n".toList "main.rl" [] = .done stream) :=
  ⟨by decide, plain_text_progress _ "main.rl" [] (by decide)⟩

end Earl
